import Mathlib

/-!
Verification development for `create-makefile-callgraph/scripts/parse_makefile.py`.

Python strings are embedded as `List Char` (`Str`), Python dicts (which preserve
insertion order) as association lists, and Python sets as lists with
insert-if-absent update (only membership in them is ever observed).
-/

set_option maxHeartbeats 1000000

abbrev Str := List Char

/-- Conversion from a Lean string literal to the `List Char` embedding. -/
def strL (s : String) : Str := s.data

/-- The characters stripped by Python's `str.strip()` / recognized by `\s`:
space, tab, newline, carriage return, vertical tab, form feed. -/
def pyWS (c : Char) : Bool :=
  c == ' ' || c == '\t' || c == '\n' || c == '\r' || c == '\x0b' || c == '\x0c'

/-- Python `str.strip()`: remove leading and trailing whitespace. -/
def stripPy (l : Str) : Str := ((l.dropWhile pyWS).reverse.dropWhile pyWS).reverse

theorem dropWhile_len_le (p : α → Bool) : ∀ l : List α, (l.dropWhile p).length ≤ l.length := by
  intro l
  induction l with
  | nil => simp
  | cons c r ih =>
    simp only [List.dropWhile_cons]
    split
    · exact Nat.le_succ_of_le ih
    · simp

/-- Python `str.split()` with no argument: split on whitespace runs, no empty
parts; `acc` holds the (reversed) token currently being read. -/
def wsSplitAux : Str → Str → List Str
  | [], acc => if acc = [] then [] else [acc.reverse]
  | c :: r, acc =>
    if pyWS c then (if acc = [] then wsSplitAux r [] else acc.reverse :: wsSplitAux r [])
    else wsSplitAux r (c :: acc)

/-- Python `str.split()` with no argument. -/
def wsSplit (l : Str) : List Str := wsSplitAux l []

/-- Python `make_output.split('\n')`. -/
def splitNl : Str → List Str
  | [] => [[]]
  | c :: r =>
    if c = '\n' then [] :: splitNl r
    else
      match splitNl r with
      | [] => [[c]]
      | h :: t => (c :: h) :: t

/-- Python `'\n'.join(lines)`; used to assemble test inputs line by line. -/
def joinNl : List Str → Str
  | [] => []
  | [l] => l
  | l :: ls => l ++ '\n' :: joinNl ls

/-- `leadsWith p l`: string `l` starts with `p` (Python `str.startswith`). -/
def leadsWith : Str → Str → Bool
  | [], _ => true
  | _ :: _, [] => false
  | a :: p, b :: l => a == b && leadsWith p l

/-- Python `pat in l` for strings: `pat` occurs as a contiguous substring of `l`. -/
def hasSub : Str → Str → Bool
  | [], pat => leadsWith pat []
  | l@(_ :: r), pat => leadsWith pat l || hasSub r pat

/-- The text following the first occurrence of `pat` in `l` (`none` if absent). -/
def afterSub : Str → Str → Option Str
  | [], pat => if leadsWith pat [] then some [] else none
  | l@(_ :: r), pat => if leadsWith pat l then some (l.drop pat.length) else afterSub r pat

/-- Python `list.index` / `str.index`: index of the first occurrence. -/
def firstIdxA {α : Type _} [DecidableEq α] : α → List α → Nat
  | _, [] => 0
  | a, x :: r => if x = a then 0 else firstIdxA a r + 1

/-- The part of `l` before the first occurrence of character `d`. -/
def beforeChar (d : Char) (l : Str) : Str := l.takeWhile (fun c => !(c == d))

/-- The part of `l` after the first occurrence of character `d`. -/
def afterChar (d : Char) (l : Str) : Str := (l.dropWhile (fun c => !(c == d))).drop 1

/-- Python `str.isupper()` restricted to ASCII (all names in scope are ASCII):
at least one alphabetic character, and no lowercase alphabetic character. -/
def pyIsUpper (l : Str) : Bool :=
  l.any (fun c => c.isAlpha) && l.all (fun c => !c.isAlpha || c.isUpper)

section AssocOps

variable {α β : Type _} [DecidableEq α]

/-- Python dict lookup on an insertion-ordered association list. -/
def lookupA : List (α × β) → α → Option β
  | [], _ => none
  | (k, v) :: r, x => if x = k then some v else lookupA r x

/-- The keys of a dict, in insertion order. -/
def keysOf (l : List (α × β)) : List α := l.map Prod.fst

/-- Python `if k not in d: d[k] = []` followed by `d[k].extend(vs)`:
extend the entry for `k` in place, or create it at the end. -/
def extendEntry : List (α × List β) → α → List β → List (α × List β)
  | [], k, vs => [(k, vs)]
  | (k', v') :: r, k, vs =>
    if k = k' then (k', v' ++ vs) :: r else (k', v') :: extendEntry r k vs

/-- Python `collections.defaultdict(list)` update `d[k].append(v)`. -/
def appendEntry (l : List (α × List β)) (k : α) (v : β) : List (α × List β) :=
  extendEntry l k [v]

/-- Python dict assignment `d[k] = v`. -/
def setA : List (α × β) → α → β → List (α × β)
  | [], k, v => [(k, v)]
  | (k', v') :: r, k, v => if k = k' then (k, v) :: r else (k', v') :: setA r k v

/-- Python `list(dict.fromkeys(l))`: deduplicate keeping the first occurrence
of each element, in first-seen order (source line 215). -/
def pyDedup (l : List α) : List α :=
  l.foldl (fun acc x => if x ∈ acc then acc else acc ++ [x]) []

end AssocOps

/-! ## The database parser (`parse_make_database`, source lines 56–217) -/

/-- `SKIP_TARGETS` (source lines 65–70). -/
def SKIP_TARGETS : List Str :=
  [strL ".DEFAULT", strL ".SUFFIXES", strL ".INTERMEDIATE", strL ".SECONDARY",
   strL ".PRECIOUS", strL ".IGNORE", strL ".SILENT", strL ".EXPORT_ALL_VARIABLES",
   strL ".NOTPARALLEL", strL ".ONESHELL", strL ".POSIX", strL "Makefile",
   strL "GNUmakefile", strL "makefile"]

/-- `SKIP_VARS` (source lines 73–78). -/
def SKIP_VARS : List Str :=
  [strL "MAKEFILES", strL "MAKEFILE_LIST", strL "CURDIR", strL "SHELL", strL "MAKE",
   strL "MAKELEVEL", strL "MAKEFLAGS", strL "MFLAGS", strL "MAKE_VERSION",
   strL "MAKE_COMMAND", strL ".DEFAULT_GOAL", strL ".VARIABLES", strL ".FEATURES",
   strL "VPATH", strL ".INCLUDE_DIRS", strL ".RECIPEPREFIX", strL "MAKECMDGOALS"]

/-- The guard `'.PHONY:' in line or line.startswith('.PHONY')` (source lines 98, 112). -/
def phonyLine (l : Str) : Bool := hasSub l (strL ".PHONY:") || leadsWith (strL ".PHONY") l

/-- The effect of `re.search(r'\.PHONY:\s*(.+)', line)` followed by
`.group(1).strip().split()` and `phony_targets.update(...)` (source lines 99–102,
113–116).  The regex matches iff at least one character follows the first
`.PHONY:` occurrence; the captured group, stripped and split on whitespace,
yields exactly the whitespace-separated tokens of the text after `.PHONY:`. -/
def phonyUpdate (phony : List Str) (l : Str) : List Str :=
  match afterSub l (strL ".PHONY:") with
  | none => phony
  | some rest =>
    if rest = [] then phony
    else (wsSplit rest).foldl (fun ph x => if x ∈ ph then ph else ph ++ [x]) phony

/-- The regex `^([^#:\s][^:]*?):\s*(.*)$` (source line 121).  It matches iff the
line is nonempty, its first character is none of `#`, `:`, whitespace, and it
contains a colon; group 1 is then the text before the first colon (the
non-greedy `[^:]*?` cannot cross a colon) and group 2 the text after it with
leading whitespace removed.  Both groups are stripped immediately by the source
(lines 124–125), so we return the raw colon split; callers strip. -/
def targetMatch : Str → Option (Str × Str)
  | [] => none
  | l@(c :: _) =>
    if c = '#' ∨ c = ':' ∨ pyWS c then none
    else if l.contains ':' then some (beforeChar ':' l, afterChar ':' l) else none

/-- The variable-assignment test (source lines 128–134): `=` and `:` both occur
in the line and the first `=` comes before the first `:`. -/
def eqBeforeColon (l : Str) : Prop :=
  l.contains '=' ∧ l.contains ':' ∧ firstIdxA '=' l < firstIdxA ':' l

instance (l : Str) : Decidable (eqBeforeColon l) := by
  unfold eqBeforeColon; infer_instance

/-- The character class of the recursive-make regex's target token:
ASCII letters, digits, underscore, slash, dash. -/
def mkTokChar (c : Char) : Bool :=
  c.isLower || c.isUpper || c.isDigit || c == '_' || c == '/' || c == '-'

/-- `\s+` at the front: requires at least one whitespace character, consumes the
maximal whitespace run (shorter runs cannot help a following non-whitespace
atom, so the greedy run is the only candidate). -/
def wsChomp : Str → Option Str
  | [] => none
  | c :: r => if pyWS c then some (r.dropWhile pyWS) else none

/-- The optional group `(?:\s+-C\s+([^\s]+))?` of the recursive-make regex
(source line 200): whitespace, literal `-C`, whitespace, then a maximal nonempty
run of non-whitespace characters (backtracking to a shorter run would put a
non-whitespace character where the following `\s+` must match, so only the
maximal run can succeed).  Returns the captured run and the remaining text. -/
def tryDashC (t : Str) : Option (Str × Str) :=
  match wsChomp t with
  | none => none
  | some t1 =>
    match t1 with
    | '-' :: 'C' :: t2 =>
      match wsChomp t2 with
      | none => none
      | some t3 =>
        let w := t3.takeWhile (fun c => !pyWS c)
        if w = [] then none else some (w, t3.dropWhile (fun c => !pyWS c))
    | _ => none

/-- The mandatory tail of the recursive-make regex: `\s+` followed by one or
more characters of `mkTokChar`, captured greedily. -/
def tokAfterWs (t : Str) : Option Str :=
  match wsChomp t with
  | none => none
  | some t1 =>
    let tok := t1.takeWhile mkTokChar
    if tok = [] then none else some tok

/-- Matching of the regex tail after `\$[\({]MAKE[\)}]`: the greedy optional
`-C` group is tried first; if its continuation fails the regex engine retries
without the group. -/
def makeTail (t : Str) : Option (Option Str × Str) :=
  match tryDashC t with
  | some (w, t') =>
    match tokAfterWs t' with
    | some tok => some (some w, tok)
    | none =>
      match tokAfterWs t with
      | some tok => some (none, tok)
      | none => none
  | none =>
    match tokAfterWs t with
    | some tok => some (none, tok)
    | none => none

/-- Matching of `[\({]MAKE[\)}]` right after a `$`, then the tail.  The regex
uses character classes, so mismatched pairs like `$(MAKE}` are accepted too. -/
def makeHead : Str → Option (Option Str × Str)
  | c1 :: 'M' :: 'A' :: 'K' :: 'E' :: c2 :: t =>
    if (c1 = '(' ∨ c1 = '{') ∧ (c2 = ')' ∨ c2 = '}') then makeTail t else none
  | _ => none

/-- The `re.search` of the recursive-make regex (source line 200; dollar sign,
`MAKE` in brackets, the optional `-C` group, then the token class): scan left to
right for the first position where the whole pattern matches; the result is
`(group 1 if present, group 2)`. -/
def makeSearch : Str → Option (Option Str × Str)
  | [] => none
  | c :: r =>
    if c = '$' then
      match makeHead r with
      | some res => some res
      | none => makeSearch r
    else makeSearch r

/-- The recipe loop (source lines 198–207): for each recipe line, the first
regex match appends one recursive-call edge under the current target. -/
def recipeScan (mc : List (Str × List Str)) (cur : Str) (recipe : List Str) :
    List (Str × List Str) :=
  recipe.foldl
    (fun m rl =>
      match makeSearch rl with
      | none => m
      | some (some sd, tok) => appendEntry m cur (sd ++ '/' :: tok)
      | some (none, tok) => appendEntry m cur tok)
    mc

/-- The recipe look-ahead (source lines 184–195): starting right after a target
line, consecutive lines beginning with `#` contribute `line[1:].strip()` to the
recipe; blank lines are skipped and scanning continues; the first other line
stops the scan.  Returns the recipe and the remaining lines (`i = j`). -/
def takeRecipe : List Str → List Str × List Str
  | [] => ([], [])
  | l :: r =>
    if leadsWith (strL "#") l then
      let p := takeRecipe r
      (stripPy (l.drop 1) :: p.1, p.2)
    else if stripPy l = [] then takeRecipe r
    else ([], l :: r)

theorem takeRecipe_len : ∀ ls : List Str, (takeRecipe ls).2.length ≤ ls.length := by
  intro ls
  induction ls with
  | nil => simp [takeRecipe]
  | cons l r ih =>
    simp only [takeRecipe]
    split
    · simpa using Nat.le_succ_of_le ih
    · split
      · simpa using Nat.le_succ_of_le ih
      · simp

/-- Parser state: the three structures built by `parse_make_database` plus the
`in_database_section` flag. -/
structure PSt where
  targets : List (Str × List Str)
  make_calls : List (Str × List Str)
  phony : List Str
  in_db : Bool
  deriving DecidableEq

/-- The main line loop of `parse_make_database` (source lines 86–211).  The
`fuel` argument makes the loop structurally recursive; every iteration consumes
at least one line, so fuel equal to the number of lines always suffices (the
driver `parse_raw` passes exactly that). -/
def parseGo : Nat → List Str → PSt → PSt
  | 0, _, st => st
  | _ + 1, [], st => st
  | fuel + 1, line :: rest, st =>
    if leadsWith (strL "# Files") line then parseGo fuel rest { st with in_db := true }
    else if st.in_db = false then
      (if phonyLine line then parseGo fuel rest { st with phony := phonyUpdate st.phony line }
       else parseGo fuel rest st)
    else if leadsWith (strL "#") line ∨ stripPy line = [] then parseGo fuel rest st
    else if phonyLine line then parseGo fuel rest { st with phony := phonyUpdate st.phony line }
    else
      match targetMatch line with
      | none => parseGo fuel rest st
      | some (t0, d0) =>
        let target := stripPy t0
        let deps_str := stripPy d0
        if eqBeforeColon line then parseGo fuel rest st
        else if target ∈ SKIP_TARGETS then parseGo fuel rest st
        else if target ∈ SKIP_VARS then parseGo fuel rest st
        else if pyIsUpper target ∧ ¬(' ' ∈ target) then parseGo fuel rest st
        else if leadsWith (strL "/") target then parseGo fuel rest st
        else if '%' ∈ target then parseGo fuel rest st
        else if leadsWith (strL ".") target ∧ target ≠ strL ".PHONY" then parseGo fuel rest st
        else
          let deps :=
            if deps_str = [] then []
            else (wsSplit (stripPy (deps_str.takeWhile (fun c => !(c == '#'))))).filterMap
                   (fun d => let d' := stripPy d; if d' = [] then none else some d')
          let st1 := { st with targets := extendEntry st.targets target deps }
          let pr := takeRecipe rest
          parseGo fuel pr.2 { st1 with make_calls := recipeScan st1.make_calls target pr.1 }

def initPSt : PSt := ⟨[], [], [], false⟩

/-- `parse_make_database` before the final dedup pass (source lines 60–211). -/
def parse_raw (s : Str) : PSt := parseGo (splitNl s).length (splitNl s) initPSt

/-- `parse_make_database(make_output, makefile_dir)` (source lines 56–217; the
`makefile_dir` argument is never used by the function body and is omitted).
After the line loop, each target's dependency list is deduplicated keeping
first occurrences (source lines 214–215). -/
def parse_make_database (s : Str) : PSt :=
  let st := parse_raw s
  { st with targets := st.targets.map (fun p => (p.1, pyDedup p.2)) }

/-- The combined-graph assembly from `main()` (source lines 357–363): copy every
target's dependency list, then extend with the recursive-call edges
(`extendEntry` implements `if target not in graph: graph[target] = []` followed
by `graph[target].extend(calls)`). -/
def buildGraph (targets mc : List (Str × List Str)) : List (Str × List Str) :=
  mc.foldl (fun g p => extendEntry g p.1 p.2)
    (targets.foldl (fun g p => setA g p.1 p.2) [])

/-! ## The cycle detector (`find_cycles`, source lines 227–257)

The Python recursion terminates because the global `visited` set grows on every
non-trivial call; the embedding makes this explicit with a fuel parameter that
is always sufficient (proved below for claim C10).  The unused `path` argument
of the source's `dfs` is threaded by the source but never read, and is omitted.
-/

/-- The mutable state of `find_cycles`: the global visited set, the explicit
recursion stack (append/pop at the end, as in the Python list), and the cycles
accumulated so far. -/
structure DSt (α : Type _) where
  visited : List α
  stack : List α
  cycles : List (List α)
  deriving DecidableEq

section Cycles

variable {α : Type _} [DecidableEq α]

/-- One call `dfs(node, path)` (source lines 233–251).  The dependency loop is
the `foldlM` over the adjacency list (each iteration feeds the updated state to
the next `dfs` call, and a `none` aborts — fuel exhaustion is the only `none`
source, and sufficient fuel is proved below); recursion is structural on the
fuel. -/
def dfsF : Nat → List (α × List α) → α → DSt α → Option (DSt α)
  | 0, _, _, _ => none
  | f + 1, g, node, st =>
    if node ∈ st.stack then
      some { st with cycles := st.cycles ++ [st.stack.drop (firstIdxA node st.stack) ++ [node]] }
    else if node ∈ st.visited then some st
    else
      match (match lookupA g node with | some ds => ds | none => []).foldlM
              (fun s d => dfsF f g d s) ⟨node :: st.visited, st.stack ++ [node], st.cycles⟩ with
      | none => none
      | some st2 => some { st2 with stack := st2.stack.dropLast }

/-- The loop `for dep in graph[node]: dfs(dep, path + [dep])` (source lines
247–249), written out as explicit recursion; equal to the `foldlM` in `dfsF`
(`foldlM_eq_dfsDeps`). -/
def dfsDeps (f : Nat) (g : List (α × List α)) : List α → DSt α → Option (DSt α)
  | [], st => some st
  | d :: ds, st =>
    match dfsF f g d st with
    | none => none
    | some st' => dfsDeps f g ds st'

theorem foldlM_eq_dfsDeps (f : Nat) (g : List (α × List α)) :
    ∀ (ds : List α) (st : DSt α),
      ds.foldlM (fun s d => dfsF f g d s) st = dfsDeps f g ds st := by
  intro ds
  induction ds with
  | nil => intro st; rfl
  | cons d ds ih =>
    intro st
    rw [dfsDeps]
    show (dfsF f g d st).bind (fun st' => ds.foldlM (fun s d => dfsF f g d s) st') = _
    cases dfsF f g d st with
    | none => rfl
    | some st' => exact ih st'

/-- The one-step unfolding of `dfsF` at positive fuel, with the dependency
loop written as `dfsDeps`. -/
theorem dfsF_succ (f : Nat) (g : List (α × List α)) (node : α) (st : DSt α) :
    dfsF (f + 1) g node st =
      (if node ∈ st.stack then
        some { st with cycles := st.cycles ++ [st.stack.drop (firstIdxA node st.stack) ++ [node]] }
      else if node ∈ st.visited then some st
      else
        match dfsDeps f g (match lookupA g node with | some ds => ds | none => [])
                ⟨node :: st.visited, st.stack ++ [node], st.cycles⟩ with
        | none => none
        | some st2 => some { st2 with stack := st2.stack.dropLast }) := by
  rw [dfsF, foldlM_eq_dfsDeps]

/-- The driver loop `for node in graph: if node not in visited: dfs(node, [node])`
(source lines 253–255). -/
def driveF (f : Nat) (g : List (α × List α)) : List α → DSt α → Option (DSt α)
  | [], st => some st
  | k :: ks, st =>
    if k ∈ st.visited then driveF f g ks st
    else
      match dfsF f g k st with
      | none => none
      | some st' => driveF f g ks st'

/-- All node names mentioned by the graph: keys plus every adjacency entry. -/
def nodesOf (g : List (α × List α)) : List α := keysOf g ++ (g.map Prod.snd).flatten

/-- Fuel that is always sufficient: the recursion depth of `dfs` is bounded by
the number of distinct nodes plus one (proved for claim C10). -/
def cycleFuel (g : List (α × List α)) : Nat := (nodesOf g).length + 1

def find_cyclesO (g : List (α × List α)) : Option (DSt α) :=
  driveF (cycleFuel g) g (keysOf g) ⟨[], [], []⟩

/-- `find_cycles(graph)` (source lines 227–257). -/
def find_cycles (g : List (α × List α)) : List (List α) :=
  match find_cyclesO g with
  | some st => st.cycles
  | none => []

/-- An edge of the combined graph: `y` occurs in the adjacency list of `x`. -/
def EdgeG (g : List (α × List α)) (x y : α) : Prop :=
  ∃ ds, lookupA g x = some ds ∧ y ∈ ds

instance (g : List (α × List α)) (x y : α) : Decidable (EdgeG g x y) := by
  unfold EdgeG
  rcases lookupA g x with _ | ds
  · exact .isFalse (by simp)
  · exact decidable_of_iff (y ∈ ds) (by simp)

/-- A closed directed walk: at least one edge, consecutive elements are edges,
and it starts and ends at the same node.  This is the sense in which a graph
"has a directed path from a node back to itself". -/
def IsClosedWalk (g : List (α × List α)) (c : List α) : Prop :=
  2 ≤ c.length ∧ c.head? = c.getLast? ∧ c.Chain' (EdgeG g)

end Cycles

/-! ## The renderers (`generate_dot`, `generate_mermaid`, source lines 259–316)

Both functions only read the two structures passed to them.  To make that
frame property a theorem rather than a typing artifact, the embeddings thread
the structures through and return them alongside the textual output; every
access in the body reads from the threaded copies. -/

/-- Python `str.replace('.','_').replace('/','_')` used for Mermaid identifiers. -/
def sanitizeId (l : Str) : Str := l.map (fun c => if c = '.' ∨ c = '/' then '_' else c)

/-- One DOT edge line `  "target" -> "dep";` (source line 279). -/
def dotDepLine (t d : Str) : Str :=
  strL "  \"" ++ t ++ strL "\" -> \"" ++ d ++ strL "\";"

/-- One DOT recursive-call edge line (source lines 287–290). -/
def dotCallLine (t c : Str) : Str :=
  if '/' ∈ c then
    strL "  \"" ++ t ++ strL "\" -> \"" ++ c ++
      strL "\" [style=dashed, color=blue, label=\"make -C\"];"
  else
    strL "  \"" ++ t ++ strL "\" -> \"" ++ c ++
      strL "\" [color=green, label=\"recursive make\"];"

/-- `generate_dot(targets, make_calls, makefile_path)` (source lines 259–293),
returning the joined text together with the two (unmodified) input structures.
The source also accumulates an `all_nodes` set that it never reads; it is
reproduced here and discarded, exactly as in the source. -/
def generate_dot (targets mc : List (Str × List Str)) (makefile_path : Str) :
    Str × (List (Str × List Str) × List (Str × List Str)) :=
  let header : List Str :=
    [strL "digraph MakefileCallGraph \x7b", strL "  rankdir=LR;",
     strL "  node [shape=box, style=rounded];", [],
     strL "  labelloc=\"t\";",
     strL "  label=\"Makefile Call Graph\\n" ++ makefile_path ++ strL "\";", []]
  let step1 := targets.foldl
    (fun (acc : List Str × List Str) p =>
      let nodes := p.2.foldl (fun ns d => if d ∈ ns then ns else ns ++ [d])
        (if p.1 ∈ acc.2 then acc.2 else acc.2 ++ [p.1])
      (acc.1 ++ p.2.map (dotDepLine p.1), nodes))
    (header, [])
  let step2 := mc.foldl
    (fun (acc : List Str × List Str) p =>
      let nodes := p.2.foldl (fun ns c => if c ∈ ns then ns else ns ++ [c])
        (if p.1 ∈ acc.2 then acc.2 else acc.2 ++ [p.1])
      (acc.1 ++ p.2.map (dotCallLine p.1), nodes))
    step1
  (joinNl (step2.1 ++ [strL "\x7d"]), (targets, mc))

/-- One Mermaid dependency edge line (source line 304). -/
def mermaidDepLine (t d : Str) : Str :=
  strL "  " ++ sanitizeId t ++ strL "[\"" ++ t ++ strL "\"] --> " ++
    sanitizeId d ++ strL "[\"" ++ d ++ strL "\"]"

/-- One Mermaid recursive-call edge line (source lines 311–314). -/
def mermaidCallLine (t c : Str) : Str :=
  if '/' ∈ c then
    strL "  " ++ sanitizeId t ++ strL "[\"" ++ t ++ strL "\"] -.->|\"make -C\"| " ++
      sanitizeId c ++ strL "[\"" ++ c ++ strL "\"]"
  else
    strL "  " ++ sanitizeId t ++ strL "[\"" ++ t ++ strL "\"] ==>|\"recursive\"| " ++
      sanitizeId c ++ strL "[\"" ++ c ++ strL "\"]"

/-- `generate_mermaid(targets, make_calls)` (source lines 295–316), returning
the joined text together with the two (unmodified) input structures. -/
def generate_mermaid (targets mc : List (Str × List Str)) :
    Str × (List (Str × List Str) × List (Str × List Str)) :=
  let l1 := targets.foldl (fun acc p => acc ++ p.2.map (mermaidDepLine p.1)) [strL "graph LR"]
  let l2 := mc.foldl (fun acc p => acc ++ p.2.map (mermaidCallLine p.1)) l1
  (joinNl l2, (targets, mc))

/-! ## The acquisition wrapper (`parse_makefile_with_make`, source lines 19–54)

The subprocess interaction is embedded by its observable outcome.  Crucially,
`subprocess.run` is invoked *without* `check=True` (source lines 34–40), so in
Python a completed process never raises `CalledProcessError` regardless of its
exit status: the `except subprocess.CalledProcessError` handler of source lines
45–49 is unreachable, and the captured stdout is parsed as-is. -/

/-- Outcome of the `subprocess.run(['make', '-pn', ...])` call. -/
inductive AcqOutcome where
  | timeoutExpired
  | fileNotFound
  | completed (returncode : Int) (stdout : Str)
  deriving DecidableEq

/-- The distinct fatal errors of the wrapper (each a `sys.exit(1)` with its own
diagnostic, source lines 42–52). -/
inductive AcqError where
  | timeoutErr
  | notFoundErr
  deriving DecidableEq

/-- `parse_makefile_with_make` (source lines 19–54) as a function of the
acquisition outcome.  A completed process — with any exit status — proceeds to
`parse_make_database(result.stdout)`, because `check=True` is not passed. -/
def parse_makefile_with_make : AcqOutcome → Except AcqError PSt
  | .timeoutExpired => .error .timeoutErr
  | .fileNotFound => .error .notFoundErr
  | .completed _rc out => .ok (parse_make_database out)


/-! ## Deduplication lemmas (claim C2) -/

section Dedup

variable {α : Type _} [DecidableEq α]

/-- Modelled from the spec's words (§8): "the parsed dependency list contains
the union of all declared dependencies, deduplicated, each appearing once in
first-seen order" — keep the first occurrence of each element, in the order
first encountered, by removing all later duplicates. -/
def dedupFirstSpec : List α → List α
  | [] => []
  | c :: r => c :: dedupFirstSpec (r.filter (· ≠ c))
termination_by l => l.length
decreasing_by
  have h : (r.filter (· ≠ c)).length ≤ r.length := List.length_filter_le _ r
  simp only [List.length_cons]
  omega

theorem mem_dedupFirstSpec_bounded {x : α} :
    ∀ (n : Nat) (l : List α), l.length ≤ n → (x ∈ dedupFirstSpec l ↔ x ∈ l) := by
  intro n
  induction n with
  | zero =>
    intro l hl
    rw [Nat.le_zero, List.length_eq_zero] at hl
    subst hl
    rw [dedupFirstSpec]
  | succ n ih =>
    intro l hl
    cases l with
    | nil => rw [dedupFirstSpec]
    | cons c r =>
      rw [dedupFirstSpec]
      by_cases hxc : x = c
      · simp [hxc]
      · have hlen : (r.filter (· ≠ c)).length ≤ n := by
          have h := List.length_filter_le (fun x => decide (x ≠ c)) r
          simp only [List.length_cons] at hl
          omega
        simp only [List.mem_cons, hxc, false_or]
        rw [ih _ hlen]
        simp [hxc]

theorem mem_dedupFirstSpec {x : α} {l : List α} : x ∈ dedupFirstSpec l ↔ x ∈ l :=
  mem_dedupFirstSpec_bounded l.length l le_rfl

theorem nodup_dedupFirstSpec_bounded :
    ∀ (n : Nat) (l : List α), l.length ≤ n → (dedupFirstSpec l).Nodup := by
  intro n
  induction n with
  | zero =>
    intro l hl
    rw [Nat.le_zero, List.length_eq_zero] at hl
    subst hl
    rw [dedupFirstSpec]
    exact List.nodup_nil
  | succ n ih =>
    intro l hl
    cases l with
    | nil => rw [dedupFirstSpec]; exact List.nodup_nil
    | cons c r =>
      rw [dedupFirstSpec]
      have hlen : (r.filter (· ≠ c)).length ≤ n := by
        have h := List.length_filter_le (fun x => decide (x ≠ c)) r
        simp only [List.length_cons] at hl
        omega
      refine List.nodup_cons.mpr ⟨?_, ih _ hlen⟩
      intro hc
      have hmem := mem_dedupFirstSpec.mp hc
      simp at hmem

theorem nodup_dedupFirstSpec (l : List α) : (dedupFirstSpec l).Nodup :=
  nodup_dedupFirstSpec_bounded l.length l le_rfl

theorem foldl_dedup_eq :
    ∀ (l acc : List α),
      l.foldl (fun acc x => if x ∈ acc then acc else acc ++ [x]) acc =
        acc ++ dedupFirstSpec (l.filter (fun x => decide ¬(x ∈ acc))) := by
  intro l
  induction l with
  | nil =>
    intro acc
    rw [List.filter_nil, dedupFirstSpec]
    simp
  | cons c r ih =>
    intro acc
    by_cases hc : c ∈ acc
    · simp only [List.foldl_cons, if_pos hc, List.filter_cons]
      rw [ih acc]
      simp [hc]
    · simp only [List.foldl_cons, if_neg hc, List.filter_cons]
      rw [ih (acc ++ [c])]
      have hpred : (r.filter (fun x => decide ¬(x ∈ acc ++ [c]))) =
          ((r.filter (fun x => decide ¬(x ∈ acc)))).filter (· ≠ c) := by
        rw [List.filter_filter]
        apply List.filter_congr
        intro x _
        by_cases h1 : x ∈ acc <;> by_cases h2 : x = c <;> simp [h1, h2]
      have hcval : decide (c ∉ acc) = true := by simpa using hc
      rw [if_pos hcval, dedupFirstSpec, ← hpred]
      simp

theorem pyDedup_eq_dedupFirstSpec (l : List α) : pyDedup l = dedupFirstSpec l := by
  rw [pyDedup, foldl_dedup_eq l []]
  simp only [List.nil_append]
  congr 1
  rw [show (fun x : α => decide ¬(x ∈ ([] : List α))) = fun _ => true by
    funext x; simp]
  exact List.filter_true l

theorem pyDedup_mem {x : α} {l : List α} : x ∈ pyDedup l ↔ x ∈ l := by
  rw [pyDedup_eq_dedupFirstSpec]; exact mem_dedupFirstSpec

theorem pyDedup_nodup (l : List α) : (pyDedup l).Nodup := by
  rw [pyDedup_eq_dedupFirstSpec]; exact nodup_dedupFirstSpec l

theorem pyDedup_count_one {x : α} {l : List α} (h : x ∈ l) : (pyDedup l).count x = 1 :=
  List.count_eq_one_of_mem (pyDedup_nodup l) (pyDedup_mem.mpr h)

end Dedup

/-- Bridge between the two lawful `BEq` instances on `Str` that can appear in
`List.count` statements. -/
theorem countStr_eq (d : Str) (l : List Str) :
    @List.count Str List.instBEq d l = @List.count Str instBEqOfDecidableEq d l := by
  show List.countP (fun x => @BEq.beq Str List.instBEq x d) l =
    List.countP (fun x => @BEq.beq Str instBEqOfDecidableEq x d) l
  apply List.countP_congr
  intro x _
  by_cases h : x = d <;> simp [h]

/-! ## String membership lemmas (claim C3) -/

theorem contains_iff_memC {l : Str} {c : Char} : l.contains c = true ↔ c ∈ l := by
  simp [List.contains, List.elem_iff]

theorem mem_of_mem_dropWhile {p : Char → Bool} {c : Char} {l : Str}
    (h : c ∈ l.dropWhile p) : c ∈ l :=
  (List.dropWhile_sublist p).mem h

theorem mem_of_mem_takeWhile {p : Char → Bool} {c : Char} {l : Str}
    (h : c ∈ l.takeWhile p) : c ∈ l :=
  (List.takeWhile_sublist p).mem h

theorem mem_of_mem_stripPy {c : Char} {l : Str} (h : c ∈ stripPy l) : c ∈ l := by
  unfold stripPy at h
  rw [List.mem_reverse] at h
  have h1 := mem_of_mem_dropWhile h
  rw [List.mem_reverse] at h1
  exact mem_of_mem_dropWhile h1

theorem mem_dropWhile_of_not {p : Char → Bool} {c : Char} :
    ∀ {l : Str}, c ∈ l → p c = false → c ∈ l.dropWhile p := by
  intro l
  induction l with
  | nil => simp
  | cons x r ih =>
    intro hc hp
    rw [List.dropWhile_cons]
    split
    · rcases List.mem_cons.mp hc with h | h
      · subst h; simp_all
      · exact ih h hp
    · exact hc

theorem mem_stripPy_of_not_ws {c : Char} {l : Str} (hc : c ∈ l) (hws : pyWS c = false) :
    c ∈ stripPy l := by
  unfold stripPy
  rw [List.mem_reverse]
  apply mem_dropWhile_of_not _ hws
  rw [List.mem_reverse]
  exact mem_dropWhile_of_not hc hws

theorem mem_beforeChar_firstIdx {d c : Char} :
    ∀ {l : Str}, c ∈ beforeChar d l → c ∈ l ∧ firstIdxA c l < firstIdxA d l := by
  intro l
  induction l with
  | nil => simp [beforeChar]
  | cons x r ih =>
    intro hc
    unfold beforeChar at hc
    rw [List.takeWhile_cons] at hc
    by_cases hxd : x = d
    · simp [hxd] at hc
    · have hxd' : (!(x == d)) = true := by simp [hxd]
      rw [if_pos hxd'] at hc
      rcases List.mem_cons.mp hc with h | h
      · subst h
        refine ⟨List.mem_cons_self _ _, ?_⟩
        rw [firstIdxA, firstIdxA, if_pos rfl, if_neg hxd]
        omega
      · obtain ⟨hmem, hlt⟩ := ih h
        refine ⟨List.mem_cons_of_mem _ hmem, ?_⟩
        rw [firstIdxA, firstIdxA, if_neg hxd]
        split <;> omega

theorem mem_beforeChar_of_lt {d c : Char} :
    ∀ {l : Str}, c ∈ l → firstIdxA c l < firstIdxA d l → c ∈ beforeChar d l := by
  intro l
  induction l with
  | nil => simp
  | cons x r ih =>
    intro hc hlt
    have hcd : c ≠ d := by
      rintro rfl
      exact absurd hlt (lt_irrefl _)
    unfold beforeChar
    rw [List.takeWhile_cons]
    by_cases hxc : x = c
    · have hxd : x ≠ d := by rw [hxc]; exact hcd
      have : (!(x == d)) = true := by simp [hxd]
      rw [if_pos this]
      exact List.mem_cons.mpr (Or.inl hxc.symm)
    · rw [firstIdxA, if_neg hxc] at hlt
      by_cases hxd : x = d
      · rw [firstIdxA, if_pos hxd] at hlt
        omega
      · rw [firstIdxA, if_neg hxd] at hlt
        have : (!(x == d)) = true := by simp [hxd]
        rw [if_pos this]
        rcases List.mem_cons.mp hc with h | h
        · exact absurd h.symm hxc
        · exact List.mem_cons_of_mem _ (ih h (by omega))

theorem targetMatch_some {l : Str} {p : Str × Str} (h : targetMatch l = some p) :
    p.1 = beforeChar ':' l ∧ (':' ∈ l) := by
  cases l with
  | nil => rw [targetMatch] at h; exact absurd h (by simp)
  | cons c r =>
    rw [targetMatch] at h
    split at h
    · exact absurd h (by simp)
    · split at h
      · next h2 =>
        refine ⟨?_, contains_iff_memC.mp h2⟩
        cases h
        rfl
      · exact absurd h (by simp)

section KeysExtend

variable {α β : Type _} [DecidableEq α]

omit [DecidableEq α] in
theorem keysOf_cons (p : α × List β) (r : List (α × List β)) :
    keysOf (p :: r) = p.1 :: keysOf r := rfl

theorem keysOf_extendEntry_cases {l : List (α × List β)} {key : α} {vs : List β} {k : α} :
    k ∈ keysOf (extendEntry l key vs) → k ∈ keysOf l ∨ k = key := by
  induction l with
  | nil =>
    intro hk
    simp [extendEntry, keysOf] at hk
    exact Or.inr hk
  | cons p r ih =>
    intro hk
    obtain ⟨k', v'⟩ := p
    rw [extendEntry] at hk
    split at hk
    · rw [keysOf_cons] at hk
      rcases List.mem_cons.mp hk with h | h
      · exact Or.inl (by rw [keysOf_cons]; exact List.mem_cons.mpr (Or.inl h))
      · exact Or.inl (by rw [keysOf_cons]; exact List.mem_cons.mpr (Or.inr h))
    · rw [keysOf_cons] at hk
      rcases List.mem_cons.mp hk with h | h
      · exact Or.inl (by rw [keysOf_cons]; exact List.mem_cons.mpr (Or.inl h))
      · rcases ih h with h' | h'
        · exact Or.inl (by rw [keysOf_cons]; exact List.mem_cons.mpr (Or.inr h'))
        · exact Or.inr h'

end KeysExtend

theorem keysOf_map_dedup (l : List (Str × List Str)) :
    keysOf (l.map (fun p => (p.1, pyDedup p.2))) = keysOf l := by
  simp [keysOf, List.map_map]

/-- Invariant behind claim C3: the parser never records a target name
containing `=`, because a line whose first `=` precedes its first `:` is
rejected by the variable-assignment check (source lines 127–134), and every
accepted name is a substring of the text before the line's first colon. -/
theorem parseGo_keys_no_eq :
    ∀ (fuel : Nat) (lines : List Str) (st : PSt),
      (∀ k ∈ keysOf st.targets, '=' ∉ k) →
      ∀ k ∈ keysOf (parseGo fuel lines st).targets, '=' ∉ k := by
  intro fuel
  induction fuel with
  | zero =>
    intro lines st hinv
    rw [parseGo]
    exact hinv
  | succ n ih =>
    intro lines st hinv
    cases lines with
    | nil => rw [parseGo]; exact hinv
    | cons line rest =>
      rw [parseGo]
      by_cases h1 : leadsWith (strL "# Files") line = true
      · rw [if_pos h1]; exact ih rest _ hinv
      rw [if_neg h1]
      by_cases h2 : st.in_db = false
      · rw [if_pos h2]
        by_cases h3 : phonyLine line = true
        · rw [if_pos h3]; exact ih rest _ hinv
        · rw [if_neg h3]; exact ih rest _ hinv
      rw [if_neg h2]
      by_cases h4 : leadsWith (strL "#") line = true ∨ stripPy line = []
      · rw [if_pos h4]; exact ih rest _ hinv
      rw [if_neg h4]
      by_cases h5 : phonyLine line = true
      · rw [if_pos h5]; exact ih rest _ hinv
      rw [if_neg h5]
      cases htm : targetMatch line with
      | none => exact ih rest _ hinv
      | some p =>
        obtain ⟨t0, d0⟩ := p
        dsimp only
        by_cases h6 : eqBeforeColon line
        · rw [if_pos h6]; exact ih rest _ hinv
        rw [if_neg h6]
        by_cases h7 : stripPy t0 ∈ SKIP_TARGETS
        · rw [if_pos h7]; exact ih rest _ hinv
        rw [if_neg h7]
        by_cases h8 : stripPy t0 ∈ SKIP_VARS
        · rw [if_pos h8]; exact ih rest _ hinv
        rw [if_neg h8]
        by_cases h9 : pyIsUpper (stripPy t0) = true ∧ ' ' ∉ stripPy t0
        · rw [if_pos h9]; exact ih rest _ hinv
        rw [if_neg h9]
        by_cases h10 : leadsWith (strL "/") (stripPy t0) = true
        · rw [if_pos h10]; exact ih rest _ hinv
        rw [if_neg h10]
        by_cases h11 : '%' ∈ stripPy t0
        · rw [if_pos h11]; exact ih rest _ hinv
        rw [if_neg h11]
        by_cases h12 : leadsWith (strL ".") (stripPy t0) = true ∧ stripPy t0 ≠ strL ".PHONY"
        · rw [if_pos h12]; exact ih rest _ hinv
        rw [if_neg h12]
        refine ih _ _ ?_
        intro k hk
        rcases keysOf_extendEntry_cases hk with hold | hnew
        · exact hinv k hold
        · subst hnew
          intro habs
          obtain ⟨ht0, hcolon⟩ := targetMatch_some htm
          simp only at ht0
          rw [ht0] at habs
          have h1' := mem_of_mem_stripPy habs
          obtain ⟨hmem, hlt⟩ := mem_beforeChar_firstIdx h1'
          exact h6 ⟨contains_iff_memC.mpr hmem, contains_iff_memC.mpr hcolon, hlt⟩

/-! ## Cycle-detector lemmas (claims C4, C6, C10) -/

section CycleLemmas

variable {α : Type _} [DecidableEq α]

theorem lookupA_some_mem_keys {g : List (α × List α)} {x : α} {v : List α}
    (h : lookupA g x = some v) : x ∈ keysOf g := by
  induction g with
  | nil => rw [lookupA] at h; exact absurd h (by simp)
  | cons p r ih =>
    obtain ⟨k, w⟩ := p
    rw [lookupA] at h
    split at h
    · next hxk => rw [keysOf_cons]; exact List.mem_cons.mpr (Or.inl hxk)
    · rw [keysOf_cons]; exact List.mem_cons.mpr (Or.inr (ih h))

theorem keysOf_sub_nodesOf {g : List (α × List α)} {x : α} (h : x ∈ keysOf g) :
    x ∈ nodesOf g :=
  List.mem_append_left _ h

theorem lookupA_deps_sub_nodesOf {g : List (α × List α)} {x : α} {ds : List α}
    (h : lookupA g x = some ds) : ∀ d ∈ ds, d ∈ nodesOf g := by
  induction g with
  | nil => rw [lookupA] at h; exact absurd h (by simp)
  | cons p r ih =>
    obtain ⟨k, w⟩ := p
    intro d hd
    rw [lookupA] at h
    unfold nodesOf keysOf
    split at h
    · cases h
      simp [hd]
    · have := ih h d hd
      unfold nodesOf keysOf at this
      simp only [List.map_cons, List.flatten_cons, List.cons_append, List.mem_cons,
        List.mem_append] at this ⊢
      tauto

theorem firstIdxA_append_self {a : α} : ∀ {pre : List α}, a ∉ pre →
    firstIdxA a (pre ++ [a]) = pre.length := by
  intro pre
  induction pre with
  | nil => intro _; simp [firstIdxA]
  | cons x r ih =>
    intro ha
    have hxa : x ≠ a := fun h => ha (List.mem_cons.mpr (Or.inl h.symm))
    rw [List.cons_append, firstIdxA, if_neg hxa, ih (fun h => ha (List.mem_cons.mpr (Or.inr h)))]
    rfl

theorem firstIdxA_drop_cons {a : α} : ∀ {l : List α}, a ∈ l →
    ∃ t, l.drop (firstIdxA a l) = a :: t := by
  intro l
  induction l with
  | nil => simp
  | cons x r ih =>
    intro ha
    by_cases hxa : x = a
    · subst hxa
      exact ⟨r, by rw [firstIdxA, if_pos rfl]; rfl⟩
    · rcases List.mem_cons.mp ha with h | h
      · exact absurd h.symm hxa
      · obtain ⟨t, ht⟩ := ih h
        exact ⟨t, by rw [firstIdxA, if_neg hxa]; simpa using ht⟩

theorem chain'_drop {R : α → α → Prop} : ∀ (n : Nat) {l : List α},
    l.Chain' R → (l.drop n).Chain' R := by
  intro n
  induction n with
  | zero => intro l h; simpa using h
  | succ n ih =>
    intro l h
    cases l with
    | nil => simp
    | cons x r => exact ih h.tail

/-- The frame facts every successful `dfs` call guarantees: the recursion stack
is restored, and the visited set and cycle list only grow. -/
def FrameD (st st' : DSt α) : Prop :=
  st'.stack = st.stack ∧ (∀ x ∈ st.visited, x ∈ st'.visited) ∧
    (∀ c ∈ st.cycles, c ∈ st'.cycles)

theorem FrameD.refl (st : DSt α) : FrameD st st := ⟨rfl, fun _ h => h, fun _ h => h⟩

theorem FrameD.trans {s1 s2 s3 : DSt α} (h1 : FrameD s1 s2) (h2 : FrameD s2 s3) :
    FrameD s1 s3 :=
  ⟨h2.1.trans h1.1, fun x hx => h2.2.1 x (h1.2.1 x hx), fun c hc => h2.2.2 c (h1.2.2 c hc)⟩

theorem dfs_frame (f : Nat) :
    (∀ (g : List (α × List α)) (node : α) (st st' : DSt α),
       dfsF f g node st = some st' → FrameD st st') ∧
    (∀ (g : List (α × List α)) (ds : List α) (st st' : DSt α),
       dfsDeps f g ds st = some st' → FrameD st st') := by
  induction f with
  | zero =>
    constructor
    · intro g node st st' h
      rw [dfsF] at h
      exact absurd h (by simp)
    · intro g ds st st' h
      cases ds with
      | nil => rw [dfsDeps] at h; cases h; exact FrameD.refl _
      | cons d ds =>
        rw [dfsDeps, dfsF] at h
        exact absurd h (by simp)
  | succ f ih =>
    have hF : ∀ (g : List (α × List α)) (node : α) (st st' : DSt α),
        dfsF (f + 1) g node st = some st' → FrameD st st' := by
      intro g node st st' h
      rw [dfsF_succ] at h
      by_cases hstk : node ∈ st.stack
      · rw [if_pos hstk] at h
        cases h
        exact ⟨rfl, fun _ hx => hx, fun c hc => List.mem_append_left _ hc⟩
      rw [if_neg hstk] at h
      by_cases hvis : node ∈ st.visited
      · rw [if_pos hvis] at h
        cases h
        exact FrameD.refl _
      rw [if_neg hvis] at h
      cases hD : dfsDeps f g (match lookupA g node with | some ds => ds | none => [])
          ⟨node :: st.visited, st.stack ++ [node], st.cycles⟩ with
      | none => rw [hD] at h; exact absurd h (by simp)
      | some st2 =>
        rw [hD] at h
        cases h
        obtain ⟨hstack, hv, hc⟩ := ih.2 g _ _ _ hD
        refine ⟨?_, ?_, ?_⟩
        · show st2.stack.dropLast = st.stack
          rw [hstack]
          exact List.dropLast_concat
        · intro x hx
          exact hv x (List.mem_cons_of_mem _ hx)
        · exact hc
    refine ⟨hF, ?_⟩
    intro g ds
    induction ds with
    | nil =>
      intro st st' h
      rw [dfsDeps] at h
      cases h
      exact FrameD.refl _
    | cons d ds ihd =>
      intro st st' h
      rw [dfsDeps] at h
      cases hd : dfsF (f + 1) g d st with
      | none => rw [hd] at h; exact absurd h (by simp)
      | some st1 =>
        rw [hd] at h
        exact (hF g d st st1 hd).trans (ihd st1 st' h)

theorem dfsF_frame {f : Nat} {g : List (α × List α)} {node : α} {st st' : DSt α}
    (h : dfsF f g node st = some st') : FrameD st st' :=
  (dfs_frame f).1 g node st st' h

theorem dfsDeps_frame {f : Nat} {g : List (α × List α)} {ds : List α} {st st' : DSt α}
    (h : dfsDeps f g ds st = some st') : FrameD st st' :=
  (dfs_frame f).2 g ds st st' h

theorem driveF_frame {f : Nat} {g : List (α × List α)} :
    ∀ {ks : List α} {st st' : DSt α}, driveF f g ks st = some st' → FrameD st st' := by
  intro ks
  induction ks with
  | nil =>
    intro st st' h
    rw [driveF] at h
    cases h
    exact FrameD.refl _
  | cons k ks ih =>
    intro st st' h
    rw [driveF] at h
    split at h
    · exact ih h
    · cases hd : dfsF f g k st with
      | none => rw [hd] at h; exact absurd h (by simp)
      | some st1 =>
        rw [hd] at h
        exact (dfsF_frame hd).trans (ih h)

end CycleLemmas

section Sufficiency

variable {α : Type _} [DecidableEq α]

/-- The termination measure of the Python recursion: how many mentioned nodes
are not yet globally visited. -/
def unvisitedCount (g : List (α × List α)) (st : DSt α) : Nat :=
  ((nodesOf g).toFinset \ st.visited.toFinset).card

theorem unvisitedCount_lt {g : List (α × List α)} {st : DSt α} {node : α}
    (hU : node ∈ nodesOf g) (hv : node ∉ st.visited) :
    unvisitedCount g ⟨node :: st.visited, st.stack ++ [node], st.cycles⟩ <
      unvisitedCount g st := by
  apply Finset.card_lt_card
  rw [Finset.ssubset_iff_subset_ne]
  constructor
  · apply Finset.sdiff_subset_sdiff (Finset.Subset.refl _)
    intro x hx
    rw [List.mem_toFinset] at hx ⊢
    exact List.mem_cons_of_mem _ hx
  · intro habs
    have hmem : node ∈ (nodesOf g).toFinset \ st.visited.toFinset := by
      rw [Finset.mem_sdiff, List.mem_toFinset, List.mem_toFinset]
      exact ⟨hU, hv⟩
    rw [← habs] at hmem
    rw [Finset.mem_sdiff, List.mem_toFinset] at hmem
    exact hmem.2 (by simp)

theorem unvisitedCount_mono {g : List (α × List α)} {st st' : DSt α}
    (h : ∀ x ∈ st.visited, x ∈ st'.visited) :
    unvisitedCount g st' ≤ unvisitedCount g st := by
  apply Finset.card_le_card
  apply Finset.sdiff_subset_sdiff (Finset.Subset.refl _)
  intro x hx
  rw [List.mem_toFinset] at hx ⊢
  exact h x hx

theorem unvisitedCount_le {g : List (α × List α)} (st : DSt α) :
    unvisitedCount g st ≤ (nodesOf g).length := by
  calc unvisitedCount g st ≤ (nodesOf g).toFinset.card :=
        Finset.card_le_card (Finset.sdiff_subset)
    _ = (nodesOf g).dedup.length := List.card_toFinset _
    _ ≤ (nodesOf g).length := (List.dedup_sublist _).length_le

theorem dfs_suff (f : Nat) :
    (∀ (g : List (α × List α)) (node : α) (st : DSt α),
      node ∈ nodesOf g → unvisitedCount g st < f → (dfsF f g node st).isSome) ∧
    (∀ (g : List (α × List α)) (ds : List α) (st : DSt α),
      (∀ d ∈ ds, d ∈ nodesOf g) → unvisitedCount g st < f →
      (dfsDeps f g ds st).isSome) := by
  induction f with
  | zero =>
    constructor
    · intro g node st _ hm
      exact absurd hm (by omega)
    · intro g ds st _ hm
      exact absurd hm (by omega)
  | succ f ih =>
    have hF : ∀ (g : List (α × List α)) (node : α) (st : DSt α),
        node ∈ nodesOf g → unvisitedCount g st < f + 1 → (dfsF (f + 1) g node st).isSome := by
      intro g node st hU hm
      rw [dfsF_succ]
      by_cases hstk : node ∈ st.stack
      · rw [if_pos hstk]; rfl
      rw [if_neg hstk]
      by_cases hvis : node ∈ st.visited
      · rw [if_pos hvis]; rfl
      rw [if_neg hvis]
      have hlt := @unvisitedCount_lt _ _ g st node hU hvis
      have hdeps : ∀ d ∈ (match lookupA g node with | some ds => ds | none => []),
          d ∈ nodesOf g := by
        cases hl : lookupA g node with
        | none => simp
        | some ds => simpa using lookupA_deps_sub_nodesOf hl
      have hQ := ih.2 g (match lookupA g node with | some ds => ds | none => [])
        ⟨node :: st.visited, st.stack ++ [node], st.cycles⟩ hdeps (by omega)
      cases hD : dfsDeps f g (match lookupA g node with | some ds => ds | none => [])
          ⟨node :: st.visited, st.stack ++ [node], st.cycles⟩ with
      | none => rw [hD] at hQ; exact absurd hQ (by simp)
      | some st2 => rfl
    refine ⟨hF, ?_⟩
    intro g ds
    induction ds with
    | nil => intro st _ _; rw [dfsDeps]; rfl
    | cons d ds ihd =>
      intro st hds hm
      rw [dfsDeps]
      have h1 := hF g d st (hds d (List.mem_cons_self _ _)) hm
      cases hd : dfsF (f + 1) g d st with
      | none => rw [hd] at h1; exact absurd h1 (by simp)
      | some st1 =>
        have hmono := @unvisitedCount_mono _ _ g st st1 (dfsF_frame hd).2.1
        exact ihd st1 (fun x hx => hds x (List.mem_cons_of_mem _ hx)) (by omega)

theorem driveF_suff {g : List (α × List α)} :
    ∀ (ks : List α) (st : DSt α), (∀ k ∈ ks, k ∈ nodesOf g) →
      (driveF (cycleFuel g) g ks st).isSome := by
  intro ks
  induction ks with
  | nil => intro st _; rw [driveF]; rfl
  | cons k ks ih =>
    intro st hks
    rw [driveF]
    split
    · exact ih st (fun x hx => hks x (List.mem_cons_of_mem _ hx))
    · have hm : unvisitedCount g st < cycleFuel g := by
        have := @unvisitedCount_le _ _ g st
        unfold cycleFuel
        omega
      have h1 := (dfs_suff (cycleFuel g)).1 g k st (hks k (List.mem_cons_self _ _)) hm
      cases hd : dfsF (cycleFuel g) g k st with
      | none => rw [hd] at h1; exact absurd h1 (by simp)
      | some st1 =>
        exact ih st1 (fun x hx => hks x (List.mem_cons_of_mem _ hx))

theorem find_cyclesO_isSome (g : List (α × List α)) : (find_cyclesO g).isSome :=
  driveF_suff (keysOf g) ⟨[], [], []⟩ (fun _ hk => keysOf_sub_nodesOf hk)

end Sufficiency

section Soundness

variable {α : Type _} [DecidableEq α]

/-- Context of a `dfs(node, ...)` call: either the recursion stack is empty
(top-level call from the driver) or the stack's top has an edge to `node`
(call from the dependency loop of the stack's top). -/
def CtxEdge (g : List (α × List α)) (st : DSt α) (node : α) : Prop :=
  st.stack = [] ∨ ∃ last, st.stack.getLast? = some last ∧ EdgeG g last node

/-- Every recorded cycle is a closed directed walk of the graph. -/
def CyclesOK (g : List (α × List α)) (st : DSt α) : Prop :=
  ∀ c ∈ st.cycles, IsClosedWalk g c

theorem dfs_sound (f : Nat) :
    (∀ (g : List (α × List α)) (node : α) (st st' : DSt α),
      dfsF f g node st = some st' → st.stack.Chain' (EdgeG g) → CtxEdge g st node →
      CyclesOK g st → CyclesOK g st') ∧
    (∀ (g : List (α × List α)) (ds : List α) (st st' : DSt α),
      dfsDeps f g ds st = some st' → st.stack.Chain' (EdgeG g) →
      (∀ d ∈ ds, CtxEdge g st d) → CyclesOK g st → CyclesOK g st') := by
  induction f with
  | zero =>
    constructor
    · intro g node st st' h
      rw [dfsF] at h
      exact absurd h (by simp)
    · intro g ds st st' h _ _ hok
      cases ds with
      | nil => rw [dfsDeps] at h; cases h; exact hok
      | cons d ds => rw [dfsDeps, dfsF] at h; exact absurd h (by simp)
  | succ f ih =>
    have hF : ∀ (g : List (α × List α)) (node : α) (st st' : DSt α),
        dfsF (f + 1) g node st = some st' → st.stack.Chain' (EdgeG g) →
        CtxEdge g st node → CyclesOK g st → CyclesOK g st' := by
      intro g node st st' h hchain hctx hok
      rw [dfsF_succ] at h
      by_cases hstk : node ∈ st.stack
      · rw [if_pos hstk] at h
        cases h
        intro c hc
        rcases List.mem_append.mp hc with hold | hnew
        · exact hok c hold
        · have hcw : c = st.stack.drop (firstIdxA node st.stack) ++ [node] := by
            simpa using hnew
          subst hcw
          obtain ⟨t, ht⟩ := firstIdxA_drop_cons hstk
          rcases hctx with hnil | ⟨last, hlast, hedge⟩
          · rw [hnil] at hstk; exact absurd hstk (by simp)
          have hlast2 : (node :: t).getLast? = some last := by
            rw [← ht]
            rw [← hlast]
            conv_rhs => rw [← List.take_append_drop (firstIdxA node st.stack) st.stack]
            rw [List.getLast?_append_of_ne_nil]
            rw [ht]
            simp
          rw [ht]
          refine ⟨?_, ?_, ?_⟩
          · simp only [List.cons_append, List.length_cons, List.length_append]
            omega
          · rw [List.cons_append, List.head?_cons, ← List.cons_append, List.getLast?_concat]
          · rw [List.chain'_append]
            refine ⟨?_, List.chain'_singleton _, ?_⟩
            · rw [← ht]
              exact chain'_drop _ hchain
            · intro x hx y hy
              rw [hlast2] at hx
              cases hx
              cases hy
              exact hedge
      rw [if_neg hstk] at h
      by_cases hvis : node ∈ st.visited
      · rw [if_pos hvis] at h
        cases h
        exact hok
      rw [if_neg hvis] at h
      set st1 : DSt α := ⟨node :: st.visited, st.stack ++ [node], st.cycles⟩ with hst1
      have hchain1 : st1.stack.Chain' (EdgeG g) := by
        show (st.stack ++ [node]).Chain' (EdgeG g)
        rw [List.chain'_append]
        refine ⟨hchain, List.chain'_singleton _, ?_⟩
        intro x hx y hy
        rcases hctx with hnil | ⟨last, hlast, hedge⟩
        · rw [hnil] at hx; exact absurd hx (by simp)
        · rw [hlast] at hx
          cases hx
          cases hy
          exact hedge
      have hctx1 : ∀ d ∈ (match lookupA g node with | some ds => ds | none => []),
          CtxEdge g st1 d := by
        intro d hd
        right
        refine ⟨node, ?_, ?_⟩
        · show (st.stack ++ [node]).getLast? = some node
          exact List.getLast?_concat _
        · cases hl : lookupA g node with
          | none => rw [hl] at hd; exact absurd hd (by simp)
          | some ds =>
            rw [hl] at hd
            exact ⟨ds, hl, by simpa using hd⟩
      cases hD : dfsDeps f g (match lookupA g node with | some ds => ds | none => []) st1 with
      | none => rw [hD] at h; exact absurd h (by simp)
      | some st2 =>
        rw [hD] at h
        cases h
        exact ih.2 g _ st1 st2 hD hchain1 hctx1 hok
    refine ⟨hF, ?_⟩
    intro g ds
    induction ds with
    | nil =>
      intro st st' h _ _ hok
      rw [dfsDeps] at h
      cases h
      exact hok
    | cons d ds ihd =>
      intro st st' h hchain hctx hok
      rw [dfsDeps] at h
      cases hd : dfsF (f + 1) g d st with
      | none => rw [hd] at h; exact absurd h (by simp)
      | some st1 =>
        rw [hd] at h
        have hok1 := hF g d st st1 hd hchain (hctx d (List.mem_cons_self _ _)) hok
        have hstack1 : st1.stack = st.stack := (dfsF_frame hd).1
        refine ihd st1 st' h (by rw [hstack1]; exact hchain) ?_ hok1
        intro d' hd'
        have := hctx d' (List.mem_cons_of_mem _ hd')
        rcases this with hnil | ⟨last, hlast, hedge⟩
        · exact Or.inl (by rw [hstack1]; exact hnil)
        · exact Or.inr ⟨last, by rw [hstack1]; exact hlast, hedge⟩

theorem driveF_sound {g : List (α × List α)} {f : Nat} :
    ∀ {ks : List α} {st st' : DSt α}, driveF f g ks st = some st' →
      st.stack = [] → CyclesOK g st → CyclesOK g st' := by
  intro ks
  induction ks with
  | nil =>
    intro st st' h _ hok
    rw [driveF] at h
    cases h
    exact hok
  | cons k ks ih =>
    intro st st' h hnil hok
    rw [driveF] at h
    split at h
    · exact ih h hnil hok
    · cases hd : dfsF f g k st with
      | none => rw [hd] at h; exact absurd h (by simp)
      | some st1 =>
        rw [hd] at h
        have hok1 := (dfs_sound f).1 g k st st1 hd
          (by rw [hnil]; exact List.chain'_nil) (Or.inl hnil) hok
        exact ih h (by rw [(dfsF_frame hd).1]; exact hnil) hok1

/-- Every cycle `find_cycles` reports is a closed directed walk of its graph. -/
theorem find_cycles_sound {g : List (α × List α)} :
    ∀ c ∈ find_cycles g, IsClosedWalk g c := by
  intro c hc
  unfold find_cycles at hc
  cases hO : find_cyclesO g with
  | none => rw [hO] at hc; exact absurd hc (by simp)
  | some st' =>
    rw [hO] at hc
    exact driveF_sound hO rfl (fun _ h => absurd h (by simp)) c hc

end Soundness

section SelfLoop

variable {α : Type _} [DecidableEq α]

theorem dfsF_visits {f : Nat} {g : List (α × List α)} {node : α} {st st' : DSt α}
    (h : dfsF f g node st = some st') (hsv : ∀ x ∈ st.stack, x ∈ st.visited) :
    node ∈ st'.visited := by
  cases f with
  | zero => rw [dfsF] at h; exact absurd h (by simp)
  | succ f =>
    rw [dfsF_succ] at h
    by_cases hstk : node ∈ st.stack
    · rw [if_pos hstk] at h
      cases h
      exact hsv node hstk
    rw [if_neg hstk] at h
    by_cases hvis : node ∈ st.visited
    · rw [if_pos hvis] at h
      cases h
      exact hvis
    rw [if_neg hvis] at h
    cases hD : dfsDeps f g (match lookupA g node with | some ds => ds | none => [])
        ⟨node :: st.visited, st.stack ++ [node], st.cycles⟩ with
    | none => rw [hD] at h; exact absurd h (by simp)
    | some st2 =>
      rw [hD] at h
      cases h
      exact (dfsDeps_frame hD).2.1 node (List.mem_cons_self _ _)

/-- If the dependency loop still has `a` to process while `a` sits on top of the
recursion stack (and nowhere deeper), the 1-cycle `[a, a]` gets recorded. -/
theorem dfsDeps_self {g : List (α × List α)} {a : α} :
    ∀ (f : Nat) (ds : List α) (st st' : DSt α),
      dfsDeps f g ds st = some st' → a ∈ ds →
      (∃ pre, st.stack = pre ++ [a] ∧ a ∉ pre) → [a, a] ∈ st'.cycles := by
  intro f ds
  induction ds with
  | nil => intro st st' _ ha; exact absurd ha (by simp)
  | cons d ds ih =>
    intro st st' h ha hpre
    rw [dfsDeps] at h
    cases hd : dfsF f g d st with
    | none => rw [hd] at h; exact absurd h (by simp)
    | some st1 =>
      rw [hd] at h
      by_cases hda : d = a
      · subst hda
        obtain ⟨pre, hstack, hapre⟩ := hpre
        have hmem : d ∈ st.stack := by rw [hstack]; simp
        cases f with
        | zero => rw [dfsF] at hd; exact absurd hd (by simp)
        | succ f =>
          rw [dfsF_succ, if_pos hmem] at hd
          cases hd
          have hidx : firstIdxA d st.stack = pre.length := by
            rw [hstack]; exact firstIdxA_append_self hapre
          have hdrop : st.stack.drop (firstIdxA d st.stack) = [d] := by
            rw [hidx, hstack, List.drop_left]
          refine (dfsDeps_frame h).2.2 _ ?_
          show [d, d] ∈ st.cycles ++ [st.stack.drop (firstIdxA d st.stack) ++ [d]]
          rw [hdrop]
          exact List.mem_append_right _ (by simp)
      · have ha' : a ∈ ds := by
          rcases List.mem_cons.mp ha with h' | h'
          · exact absurd h'.symm hda
          · exact h'
        obtain ⟨pre, hstack, hapre⟩ := hpre
        exact ih st1 st' h ha' ⟨pre, by rw [(dfsF_frame hd).1]; exact hstack, hapre⟩

/-- Whichever call first visits a self-looping node `a` records `[a, a]`. -/
theorem dfs_self_transition {g : List (α × List α)} {a : α} {dsA : List α}
    (hA : lookupA g a = some dsA) (haa : a ∈ dsA) (f : Nat) :
    (∀ (node : α) (st st' : DSt α),
      dfsF f g node st = some st' → (∀ x ∈ st.stack, x ∈ st.visited) →
      a ∉ st.visited → a ∈ st'.visited → [a, a] ∈ st'.cycles) ∧
    (∀ (ds : List α) (st st' : DSt α),
      dfsDeps f g ds st = some st' → (∀ x ∈ st.stack, x ∈ st.visited) →
      a ∉ st.visited → a ∈ st'.visited → [a, a] ∈ st'.cycles) := by
  induction f with
  | zero =>
    constructor
    · intro node st st' h
      rw [dfsF] at h
      exact absurd h (by simp)
    · intro ds st st' h _ hnv hv
      cases ds with
      | nil => rw [dfsDeps] at h; cases h; exact absurd hv hnv
      | cons d ds => rw [dfsDeps, dfsF] at h; exact absurd h (by simp)
  | succ f ih =>
    have hF : ∀ (node : α) (st st' : DSt α),
        dfsF (f + 1) g node st = some st' → (∀ x ∈ st.stack, x ∈ st.visited) →
        a ∉ st.visited → a ∈ st'.visited → [a, a] ∈ st'.cycles := by
      intro node st st' h hsv hnv hv
      rw [dfsF_succ] at h
      by_cases hstk : node ∈ st.stack
      · rw [if_pos hstk] at h
        cases h
        exact absurd hv hnv
      rw [if_neg hstk] at h
      by_cases hvis : node ∈ st.visited
      · rw [if_pos hvis] at h
        cases h
        exact absurd hv hnv
      rw [if_neg hvis] at h
      cases hD : dfsDeps f g (match lookupA g node with | some ds => ds | none => [])
          ⟨node :: st.visited, st.stack ++ [node], st.cycles⟩ with
      | none => rw [hD] at h; exact absurd h (by simp)
      | some st2 =>
        rw [hD] at h
        cases h
        by_cases hna : node = a
        · subst hna
          rw [hA] at hD
          refine dfsDeps_self f dsA _ st2 hD haa ⟨st.stack, rfl, ?_⟩
          intro hin
          exact hnv (hsv node hin)
        · have hsv1 : ∀ x ∈ (⟨node :: st.visited, st.stack ++ [node], st.cycles⟩ : DSt α).stack,
              x ∈ (⟨node :: st.visited, st.stack ++ [node], st.cycles⟩ : DSt α).visited := by
            intro x hx
            rcases List.mem_append.mp hx with h' | h'
            · exact List.mem_cons_of_mem _ (hsv x h')
            · simp at h'
              subst h'
              exact List.mem_cons_self _ _
          have hnv1 : a ∉ (⟨node :: st.visited, st.stack ++ [node], st.cycles⟩ : DSt α).visited := by
            intro h'
            rcases List.mem_cons.mp h' with h'' | h''
            · exact hna h''.symm
            · exact hnv h''
          exact ih.2 _ _ st2 hD hsv1 hnv1 hv
    refine ⟨hF, ?_⟩
    intro ds
    induction ds with
    | nil =>
      intro st st' h _ hnv hv
      rw [dfsDeps] at h
      cases h
      exact absurd hv hnv
    | cons d ds ihd =>
      intro st st' h hsv hnv hv
      rw [dfsDeps] at h
      cases hd : dfsF (f + 1) g d st with
      | none => rw [hd] at h; exact absurd h (by simp)
      | some st1 =>
        rw [hd] at h
        by_cases hav : a ∈ st1.visited
        · exact (dfsDeps_frame h).2.2 _ (hF d st st1 hd hsv hnv hav)
        · have hsv1 : ∀ x ∈ st1.stack, x ∈ st1.visited := by
            intro x hx
            rw [(dfsF_frame hd).1] at hx
            exact (dfsF_frame hd).2.1 x (hsv x hx)
          exact ihd st1 st' h hsv1 hav hv

theorem driveF_self {g : List (α × List α)} {a : α} {dsA : List α} {f : Nat}
    (hA : lookupA g a = some dsA) (haa : a ∈ dsA) :
    ∀ (ks : List α) (st st' : DSt α), driveF f g ks st = some st' →
      (∀ x ∈ st.stack, x ∈ st.visited) → a ∈ ks → a ∉ st.visited →
      [a, a] ∈ st'.cycles := by
  intro ks
  induction ks with
  | nil => intro st st' _ _ ha; exact absurd ha (by simp)
  | cons k ks ih =>
    intro st st' h hsv ha hnv
    rw [driveF] at h
    split at h
    · next hkv =>
      have hak : a ≠ k := fun h' => hnv (h' ▸ hkv)
      have ha' : a ∈ ks := by
        rcases List.mem_cons.mp ha with h' | h'
        · exact absurd h' hak
        · exact h'
      exact ih st st' h hsv ha' hnv
    · cases hd : dfsF f g k st with
      | none => rw [hd] at h; exact absurd h (by simp)
      | some st1 =>
        rw [hd] at h
        by_cases hav : a ∈ st1.visited
        · exact (driveF_frame h).2.2 _
            ((dfs_self_transition hA haa f).1 k st st1 hd hsv hnv hav)
        · have hak : a ≠ k := by
            intro h'
            exact hav (h' ▸ dfsF_visits hd hsv)
          have ha' : a ∈ ks := by
            rcases List.mem_cons.mp ha with h' | h'
            · exact absurd h' hak
            · exact h'
          have hsv1 : ∀ x ∈ st1.stack, x ∈ st1.visited := by
            intro x hx
            rw [(dfsF_frame hd).1] at hx
            exact (dfsF_frame hd).2.1 x (hsv x hx)
          exact ih st1 st' h hsv1 ha' hav

end SelfLoop

/-! ## Graph-threading embedding of the cycle detector (claim C9)

The Python `graph` dict is a mutable object captured by the `dfs` closure.  To
state that `find_cycles` leaves it unchanged, this embedding threads the graph
value through every call — any mutation would have to show up as a changed
second component — and every read (`node in graph`, `graph[node]`) consumes the
threaded copy. -/

section Threaded

variable {α : Type _} [DecidableEq α]

mutual

def dfsFT : Nat → α → DSt α × List (α × List α) → Option (DSt α × List (α × List α))
  | 0, _, _ => none
  | f + 1, node, (st, g) =>
    if node ∈ st.stack then
      some ({ st with cycles := st.cycles ++ [st.stack.drop (firstIdxA node st.stack) ++ [node]] }, g)
    else if node ∈ st.visited then some (st, g)
    else
      match dfsDepsT f (match lookupA g node with | some ds => ds | none => [])
              (⟨node :: st.visited, st.stack ++ [node], st.cycles⟩, g) with
      | none => none
      | some (st2, g2) => some ({ st2 with stack := st2.stack.dropLast }, g2)
  termination_by f _ _ => (f, 0)

def dfsDepsT : Nat → List α → DSt α × List (α × List α) → Option (DSt α × List (α × List α))
  | _, [], s => some s
  | f, d :: ds, s =>
    match dfsFT f d s with
    | none => none
    | some s' => dfsDepsT f ds s'
  termination_by f ds _ => (f, ds.length + 1)

end

def driveFT (f : Nat) : List α → DSt α × List (α × List α) → Option (DSt α × List (α × List α))
  | [], s => some s
  | k :: ks, (st, g) =>
    if k ∈ st.visited then driveFT f ks (st, g)
    else
      match dfsFT f k (st, g) with
      | none => none
      | some s' => driveFT f ks s'

/-- `find_cycles` with the graph threaded through the whole computation. -/
def find_cycles_thr (g : List (α × List α)) : List (List α) × List (α × List α) :=
  match driveFT (cycleFuel g) (keysOf g) (⟨[], [], []⟩, g) with
  | some (st, g') => (st.cycles, g')
  | none => ([], g)

theorem dfsT_eq (f : Nat) :
    (∀ (node : α) (st : DSt α) (g : List (α × List α)),
      dfsFT f node (st, g) = (dfsF f g node st).map (fun s => (s, g))) ∧
    (∀ (ds : List α) (st : DSt α) (g : List (α × List α)),
      dfsDepsT f ds (st, g) = (dfsDeps f g ds st).map (fun s => (s, g))) := by
  induction f with
  | zero =>
    constructor
    · intro node st g
      rw [dfsFT, dfsF]
      rfl
    · intro ds st g
      cases ds with
      | nil => rw [dfsDepsT, dfsDeps]; rfl
      | cons d ds => rw [dfsDepsT, dfsDeps, dfsFT, dfsF]; rfl
  | succ f ih =>
    have hF : ∀ (node : α) (st : DSt α) (g : List (α × List α)),
        dfsFT (f + 1) node (st, g) = (dfsF (f + 1) g node st).map (fun s => (s, g)) := by
      intro node st g
      rw [dfsFT, dfsF_succ]
      by_cases hstk : node ∈ st.stack
      · rw [if_pos hstk, if_pos hstk]
        rfl
      rw [if_neg hstk, if_neg hstk]
      by_cases hvis : node ∈ st.visited
      · rw [if_pos hvis, if_pos hvis]
        rfl
      rw [if_neg hvis, if_neg hvis]
      rw [ih.2]
      cases dfsDeps f g (match lookupA g node with | some ds => ds | none => [])
          ⟨node :: st.visited, st.stack ++ [node], st.cycles⟩ with
      | none => rfl
      | some st2 => rfl
    refine ⟨hF, ?_⟩
    intro ds
    induction ds with
    | nil => intro st g; rw [dfsDepsT, dfsDeps]; rfl
    | cons d ds ihd =>
      intro st g
      rw [dfsDepsT, dfsDeps, hF]
      cases dfsF (f + 1) g d st with
      | none => rfl
      | some st1 => exact ihd st1 g

theorem driveFT_eq {f : Nat} {g : List (α × List α)} :
    ∀ (ks : List α) (st : DSt α),
      driveFT f ks (st, g) = (driveF f g ks st).map (fun s => (s, g)) := by
  intro ks
  induction ks with
  | nil => intro st; rw [driveFT, driveF]; rfl
  | cons k ks ih =>
    intro st
    rw [driveFT, driveF]
    split
    · exact ih st
    · rw [(dfsT_eq f).1]
      cases dfsF f g k st with
      | none => rfl
      | some st1 => exact ih st1

theorem find_cycles_thr_eq (g : List (α × List α)) :
    find_cycles_thr g = (find_cycles g, g) := by
  unfold find_cycles_thr find_cycles find_cyclesO
  rw [driveFT_eq]
  cases driveF (cycleFuel g) g (keysOf g) ⟨[], [], []⟩ with
  | none => rfl
  | some st => rfl

end Threaded

/-! ## Recursive-make matcher lemmas (claim C7) -/

theorem takeWhile_all {p : Char → Bool} : ∀ {l : Str}, (∀ c ∈ l, p c = true) →
    l.takeWhile p = l := by
  intro l
  induction l with
  | nil => simp
  | cons x r ih =>
    intro h
    rw [List.takeWhile_cons, if_pos (h x (List.mem_cons_self _ _))]
    rw [ih (fun c hc => h c (List.mem_cons_of_mem _ hc))]

theorem dropWhile_all {p : Char → Bool} : ∀ {l : Str}, (∀ c ∈ l, p c = true) →
    l.dropWhile p = [] := by
  intro l
  induction l with
  | nil => simp
  | cons x r ih =>
    intro h
    rw [List.dropWhile_cons, if_pos (h x (List.mem_cons_self _ _))]
    exact ih (fun c hc => h c (List.mem_cons_of_mem _ hc))

theorem takeWhile_append_stop {p : Char → Bool} {y : Char} {l2 : Str} (hy : p y = false) :
    ∀ {l1 : Str}, (∀ c ∈ l1, p c = true) → (l1 ++ y :: l2).takeWhile p = l1 := by
  intro l1
  induction l1 with
  | nil => intro _; rw [List.nil_append, List.takeWhile_cons, if_neg (by simp [hy])]
  | cons x r ih =>
    intro h
    rw [List.cons_append, List.takeWhile_cons, if_pos (h x (List.mem_cons_self _ _))]
    rw [ih (fun c hc => h c (List.mem_cons_of_mem _ hc))]

theorem dropWhile_append_stop {p : Char → Bool} {y : Char} {l2 : Str} (hy : p y = false) :
    ∀ {l1 : Str}, (∀ c ∈ l1, p c = true) → (l1 ++ y :: l2).dropWhile p = y :: l2 := by
  intro l1
  induction l1 with
  | nil => intro _; rw [List.nil_append, List.dropWhile_cons, if_neg (by simp [hy])]
  | cons x r ih =>
    intro h
    rw [List.cons_append, List.dropWhile_cons, if_pos (h x (List.mem_cons_self _ _))]
    exact ih (fun c hc => h c (List.mem_cons_of_mem _ hc))

theorem dropWhile_head_false {p : Char → Bool} : ∀ {l : Str},
    (∀ c ∈ l.head?, p c = false) → l.dropWhile p = l := by
  intro l
  cases l with
  | nil => simp
  | cons x r =>
    intro h
    rw [List.dropWhile_cons, if_neg (by simp [h x (by rw [List.head?_cons]; rfl)])]

theorem mkTok_not_ws {c : Char} (h : mkTokChar c = true) : pyWS c = false := by
  by_contra habs
  have hws : pyWS c = true := by
    cases hb : pyWS c
    · exact absurd hb habs
    · rfl
  unfold pyWS at hws
  simp only [Bool.or_eq_true, beq_iff_eq] at hws
  rcases hws with ((((h1 | h1) | h1) | h1) | h1) | h1 <;>
    (subst h1; revert h; decide)

theorem mem_of_mem_getLastQ {x : α} {l : List α} (h : x ∈ l.getLast?) : x ∈ l := by
  obtain ⟨hne, hx⟩ := List.mem_getLast?_eq_getLast h
  rw [hx]
  exact List.getLast_mem hne

/-- `stripPy` is the identity on a string whose first and last characters are
not whitespace. -/
theorem stripPy_eq_self {l : Str} (h1 : ∀ c ∈ l.head?, pyWS c = false)
    (h2 : ∀ c ∈ l.getLast?, pyWS c = false) : stripPy l = l := by
  unfold stripPy
  rw [dropWhile_head_false h1]
  rw [dropWhile_head_false (by rw [List.head?_reverse]; exact h2)]
  exact List.reverse_reverse l


/-- Matching the recursive-make regex against `$(MAKE) -C <sub> <tgt>`:
the optional group captures `sub` and the tail captures `tgt`. -/
theorem makeSearch_dashC {sub tgt : Str} (hsub : sub ≠ [])
    (hsubws : ∀ c ∈ sub, pyWS c = false) (htgt : tgt ≠ [])
    (htok : ∀ c ∈ tgt, mkTokChar c = true) :
    makeSearch (strL "$(MAKE) -C " ++ sub ++ ' ' :: tgt) = some (some sub, tgt) := by
  obtain ⟨s0, sub', rfl⟩ : ∃ s0 sub', sub = s0 :: sub' := by
    cases sub with
    | nil => exact absurd rfl hsub
    | cons s0 sub' => exact ⟨s0, sub', rfl⟩
  obtain ⟨t0, tgt', rfl⟩ : ∃ t0 tgt', tgt = t0 :: tgt' := by
    cases tgt with
    | nil => exact absurd rfl htgt
    | cons t0 tgt' => exact ⟨t0, tgt', rfl⟩
  have hsub0 : pyWS s0 = false := hsubws s0 (List.mem_cons_self _ _)
  have htok0 : mkTokChar t0 = true := htok t0 (List.mem_cons_self _ _)
  have htws0 : pyWS t0 = false := mkTok_not_ws htok0
  have hws' : ∀ c ∈ (s0 :: sub'), (fun c => !pyWS c) c = true := by
    intro c hc
    simp [hsubws c hc]
  have htry : tryDashC (' ' :: '-' :: 'C' :: ' ' :: ((s0 :: sub') ++ ' ' :: t0 :: tgt')) =
      some (s0 :: sub', ' ' :: t0 :: tgt') := by
    unfold tryDashC
    rw [wsChomp, if_pos (by decide)]
    try dsimp only
    rw [List.dropWhile_cons, if_neg (by decide)]
    show (match wsChomp (' ' :: (s0 :: sub' ++ ' ' :: t0 :: tgt')) with
      | none => none
      | some t3 => if List.takeWhile (fun c => !pyWS c) t3 = [] then none
          else some (List.takeWhile (fun c => !pyWS c) t3, List.dropWhile (fun c => !pyWS c) t3)) =
      some (s0 :: sub', ' ' :: t0 :: tgt')
    rw [wsChomp, if_pos (by decide)]
    try dsimp only
    have hd1 : List.dropWhile pyWS (s0 :: sub' ++ ' ' :: t0 :: tgt') =
        s0 :: sub' ++ ' ' :: t0 :: tgt' := by
      rw [List.cons_append, List.dropWhile_cons, if_neg (by simp [hsub0])]
    rw [hd1]
    have htk : List.takeWhile (fun c => !pyWS c) (s0 :: sub' ++ ' ' :: t0 :: tgt') =
        s0 :: sub' := takeWhile_append_stop (by decide) hws'
    have hdk : List.dropWhile (fun c => !pyWS c) (s0 :: sub' ++ ' ' :: t0 :: tgt') =
        ' ' :: t0 :: tgt' := dropWhile_append_stop (by decide) hws'
    rw [htk, hdk, if_neg (by simp)]
  have htokA : tokAfterWs (' ' :: t0 :: tgt') = some (t0 :: tgt') := by
    unfold tokAfterWs
    rw [wsChomp, if_pos (by decide)]
    try dsimp only
    have hd2 : List.dropWhile pyWS (t0 :: tgt') = t0 :: tgt' := by
      rw [List.dropWhile_cons, if_neg (by simp [htws0])]
    rw [hd2, takeWhile_all htok, if_neg (by simp)]
  show makeSearch ('$' :: '(' :: 'M' :: 'A' :: 'K' :: 'E' :: ')' :: ' ' :: '-' :: 'C' :: ' '
      :: ((s0 :: sub') ++ ' ' :: t0 :: tgt')) = some (some (s0 :: sub'), t0 :: tgt')
  rw [makeSearch, if_pos rfl, makeHead, if_pos (by simp)]
  unfold makeTail
  rw [htry]
  try dsimp only
  rw [htokA]

theorem makeSearch_noC {tgt : Str} (htgt : tgt ≠ [])
    (htok : ∀ c ∈ tgt, mkTokChar c = true) :
    makeSearch (strL "$(MAKE) " ++ tgt) = some (none, tgt) := by
  obtain ⟨t0, tgt', rfl⟩ : ∃ t0 tgt', tgt = t0 :: tgt' := by
    cases tgt with
    | nil => exact absurd rfl htgt
    | cons t0 tgt' => exact ⟨t0, tgt', rfl⟩
  have htok0 : mkTokChar t0 = true := htok t0 (List.mem_cons_self _ _)
  have htws0 : pyWS t0 = false := mkTok_not_ws htok0
  have hd2 : List.dropWhile pyWS (t0 :: tgt') = t0 :: tgt' := by
    rw [List.dropWhile_cons, if_neg (by simp [htws0])]
  have htry : tryDashC (' ' :: t0 :: tgt') = none := by
    unfold tryDashC
    rw [wsChomp, if_pos (by decide)]
    try dsimp only
    rw [hd2]
    split
    · next t2 heq =>
      have htgt2 : tgt' = 'C' :: t2 := by
        rw [List.cons.injEq] at heq
        exact heq.2
      cases t2 with
      | nil => rfl
      | cons a t3 =>
        have ha : a ∈ t0 :: tgt' := by
          rw [htgt2]
          exact List.mem_cons_of_mem _ (List.mem_cons_of_mem _ (List.mem_cons_self _ _))
        have haws : pyWS a = false := mkTok_not_ws (htok a ha)
        rw [wsChomp, if_neg (by simp [haws])]
    · rfl
  have htokA : tokAfterWs (' ' :: t0 :: tgt') = some (t0 :: tgt') := by
    unfold tokAfterWs
    rw [wsChomp, if_pos (by decide)]
    try dsimp only
    rw [hd2, takeWhile_all htok, if_neg (by simp)]
  show makeSearch ('$' :: '(' :: 'M' :: 'A' :: 'K' :: 'E' :: ')' :: ' ' :: (t0 :: tgt')) =
    some (none, t0 :: tgt')
  rw [makeSearch, if_pos rfl, makeHead, if_pos (by simp)]
  unfold makeTail
  rw [htry]
  try dsimp only
  rw [htokA]

theorem leadsWith_cons_ne {a b : Char} {p l : Str} (h : ¬(a = b)) :
    leadsWith (a :: p) (b :: l) = false := by
  show (a == b && leadsWith p l) = false
  have hab : (a == b) = false := by
    cases hb : a == b
    · rfl
    · exact absurd (eq_of_beq hb) h
  rw [hab, Bool.false_and]

/-- `re.search` scans left to right, so text before the first `$` cannot
contribute a match: the leftmost match of the recursive-make regex in
`p ++ r` is the leftmost match in `r` whenever `p` has no dollar sign. -/
theorem makeSearch_append_noDollar : ∀ {p : Str}, '$' ∉ p →
    ∀ r : Str, makeSearch (p ++ r) = makeSearch r := by
  intro p
  induction p with
  | nil => intro _ r; rw [List.nil_append]
  | cons c p' ih =>
    intro h r
    have hc : ¬(c = '$') := fun h' => h (by simp [h'])
    rw [List.cons_append, makeSearch, if_neg hc, ih (fun h' => h (List.mem_cons_of_mem _ h')) r]

/-- The target regex on a line `t:` whose name `t` is admissible: group 1 is
`t` and group 2 is empty. -/
theorem targetMatch_append_colon {t0 : Char} {t' : Str}
    (h0 : ¬(t0 = '#' ∨ t0 = ':' ∨ pyWS t0)) (htc : ':' ∉ t0 :: t') :
    targetMatch ((t0 :: t') ++ [':']) = some (t0 :: t', []) := by
  have hNo : ∀ c ∈ t0 :: t', (fun c => !(c == ':')) c = true := by
    intro c hc
    have hcne : ¬(c = ':') := fun h => htc (h ▸ hc)
    simp [hcne]
  have hb : beforeChar ':' ((t0 :: t') ++ [':']) = t0 :: t' :=
    takeWhile_append_stop (by decide) hNo
  have ha : afterChar ':' ((t0 :: t') ++ [':']) = [] := by
    unfold afterChar
    rw [dropWhile_append_stop (by decide) hNo]
    rfl
  rw [List.cons_append, targetMatch, if_neg h0]
  have hcont : (t0 :: (t' ++ [':'])).contains ':' = true :=
    contains_iff_memC.mpr (by simp)
  rw [if_pos hcont]
  rw [← List.cons_append, hb, ha]

/-! ## Splitting joined lines (claims C1, C7 inputs) -/

theorem splitNl_no_nl : ∀ {l : Str}, '\n' ∉ l → splitNl l = [l] := by
  intro l
  induction l with
  | nil => intro _; rw [splitNl]
  | cons c r ih =>
    intro h
    have hc : ¬(c = '\n') := fun h' => h (List.mem_cons.mpr (Or.inl h'.symm))
    rw [splitNl, if_neg hc, ih (fun h' => h (List.mem_cons_of_mem _ h'))]

theorem splitNl_append_nl {s : Str} : ∀ {l : Str}, '\n' ∉ l →
    splitNl (l ++ '\n' :: s) = l :: splitNl s := by
  intro l
  induction l with
  | nil => intro _; rw [List.nil_append, splitNl, if_pos rfl]
  | cons c r ih =>
    intro h
    have hc : ¬(c = '\n') := fun h' => h (List.mem_cons.mpr (Or.inl h'.symm))
    rw [List.cons_append, splitNl, if_neg hc, ih (fun h' => h (List.mem_cons_of_mem _ h'))]

theorem splitNl_joinNl : ∀ {ls : List Str}, ls ≠ [] → (∀ l ∈ ls, '\n' ∉ l) →
    splitNl (joinNl ls) = ls := by
  intro ls
  induction ls with
  | nil => intro h; exact absurd rfl h
  | cons l rest ih =>
    intro _ h
    cases rest with
    | nil =>
      rw [joinNl]
      exact splitNl_no_nl (h l (List.mem_cons_self _ _))
    | cons l2 rest2 =>
      rw [show joinNl (l :: l2 :: rest2) = l ++ '\n' :: joinNl (l2 :: rest2) from rfl,
        splitNl_append_nl (h l (List.mem_cons_self _ _))]
      rw [ih (by simp) (fun x hx => h x (List.mem_cons_of_mem _ hx))]

/-- The edge destination recorded for a recipe match (source lines 204–207):
`subdir/subtarget` when the `-C` group matched, bare `subtarget` otherwise. -/
def callEdge (sdOpt : Option Str) (tok : Str) : Str :=
  match sdOpt with
  | some sd => sd ++ '/' :: tok
  | none => tok

/-- Input family for claim C7: the make database section holding a single
target line `t:` followed by one recipe line with text `R` (recipe lines of
`make -pn` dry-run output begin with `#`, source line 188). -/
def c7in (t R : Str) : Str :=
  joinNl [strL "# Files", t ++ [':'], '#' :: '\t' :: R]

/-- End-to-end symbolic parse for claim C7: in a database section with one
accepted target line `t:` followed by one recipe line `#\tR`, the pair produced
by the recursive-make regex's leftmost match on `R` becomes the single recorded
recursive-call edge of `t`, and `t` is the single (dependency-free) parsed
target.  The hypotheses on `t` are exactly the source's acceptance checks
(lines 121–167). -/
theorem parse_recipe_call (t R : Str) (sdOpt : Option Str) (tok : Str)
    (ht : t ≠ [])
    (hth : ∀ c ∈ t.head?, c ≠ '#' ∧ c ≠ ':' ∧ pyWS c = false ∧ c ≠ '/' ∧ c ≠ '.')
    (htl : ∀ c ∈ t.getLast?, pyWS c = false)
    (htc : ':' ∉ t) (hteq : '=' ∉ t) (htnl : '\n' ∉ t)
    (htph : phonyLine (t ++ [':']) = false)
    (htsk : t ∉ SKIP_TARGETS) (htsv : t ∉ SKIP_VARS)
    (htup : ¬(pyIsUpper t ∧ ¬(' ' ∈ t)))
    (htpc : '%' ∉ t)
    (hR1 : ∀ c ∈ R.head?, pyWS c = false) (hR2 : ∀ c ∈ R.getLast?, pyWS c = false)
    (hnl : '\n' ∉ R) (hres : makeSearch R = some (sdOpt, tok)) :
    (parse_make_database (c7in t R)).targets = [(t, [])] ∧
    (parse_make_database (c7in t R)).make_calls = [(t, [callEdge sdOpt tok])] := by
  obtain ⟨t0, t', rfl⟩ : ∃ t0 t', t = t0 :: t' := by
    cases t with
    | nil => exact absurd rfl ht
    | cons t0 t' => exact ⟨t0, t', rfl⟩
  obtain ⟨h0h, h0c, h0w, h0s, h0d⟩ := hth t0 (by simp)
  have hsplit : splitNl (joinNl [strL "# Files", (t0 :: t') ++ [':'], '#' :: '\t' :: R]) =
      [strL "# Files", (t0 :: t') ++ [':'], '#' :: '\t' :: R] := by
    apply splitNl_joinNl (by simp)
    intro l hl
    rcases List.mem_cons.mp hl with h | hl
    · subst h; decide
    rcases List.mem_cons.mp hl with h | hl
    · subst h
      intro habs
      rcases List.mem_append.mp habs with h' | h'
      · exact htnl h'
      · exact absurd h' (by decide)
    rcases List.mem_cons.mp hl with h | hl
    · subst h
      intro habs
      rcases List.mem_cons.mp habs with h' | habs
      · exact absurd h'.symm (by decide)
      rcases List.mem_cons.mp habs with h' | habs
      · exact absurd h'.symm (by decide)
      · exact hnl habs
    · exact absurd hl (by simp)
  have hF : leadsWith (strL "# Files") ((t0 :: t') ++ [':']) = false := by
    rw [List.cons_append, show strL "# Files" = '#' :: strL " Files" from rfl]
    exact leadsWith_cons_ne (fun h => h0h h.symm)
  have hH : leadsWith (strL "#") ((t0 :: t') ++ [':']) = false := by
    rw [List.cons_append, show strL "#" = '#' :: ([] : Str) from rfl]
    exact leadsWith_cons_ne (fun h => h0h h.symm)
  have hS : ¬(stripPy ((t0 :: t') ++ [':']) = []) := by
    intro habs
    have hmem : t0 ∈ stripPy ((t0 :: t') ++ [':']) :=
      mem_stripPy_of_not_ws (by simp) h0w
    rw [habs] at hmem
    exact absurd hmem (by simp)
  have htm : targetMatch ((t0 :: t') ++ [':']) = some ((t0 :: t'), []) :=
    targetMatch_append_colon
      (by
        intro h
        rcases h with h | h | h
        · exact h0h h
        · exact h0c h
        · rw [h0w] at h; exact Bool.noConfusion h)
      htc
  have hstript : stripPy (t0 :: t') = t0 :: t' :=
    stripPy_eq_self
      (by
        intro c hc
        rw [show (t0 :: t').head? = some t0 from rfl] at hc
        cases hc
        exact h0w)
      htl
  have heqb : ¬ eqBeforeColon ((t0 :: t') ++ [':']) := by
    intro h
    obtain ⟨h1, _, _⟩ := h
    have hmem := contains_iff_memC.mp h1
    rcases List.mem_append.mp hmem with h' | h'
    · exact hteq h'
    · exact absurd h' (by decide)
  have hsl : leadsWith (strL "/") (t0 :: t') = false := by
    rw [show strL "/" = '/' :: ([] : Str) from rfl]
    exact leadsWith_cons_ne (fun h => h0s h.symm)
  have hdt : ¬(leadsWith (strL ".") (t0 :: t') = true ∧ (t0 :: t') ≠ strL ".PHONY") := by
    intro h
    obtain ⟨h1, _⟩ := h
    rw [show strL "." = '.' :: ([] : Str) from rfl,
      leadsWith_cons_ne (fun h => h0d h.symm)] at h1
    exact Bool.noConfusion h1
  have hmain : parse_raw (joinNl [strL "# Files", (t0 :: t') ++ [':'], '#' :: '\t' :: R]) =
      ⟨[((t0 :: t'), [])], [((t0 :: t'), [callEdge sdOpt tok])], [], true⟩ := by
    unfold parse_raw
    rw [hsplit]
    rw [show ([strL "# Files", (t0 :: t') ++ [':'], '#' :: '\t' :: R] : List Str).length = 2 + 1
      from rfl]
    rw [parseGo, if_pos (by decide)]
    rw [show (2 : Nat) = 1 + 1 from rfl]
    rw [parseGo, if_neg (by intro h; rw [hF] at h; exact Bool.noConfusion h),
      if_neg (by decide),
      if_neg (by
        intro h
        rcases h with h | h
        · rw [hH] at h; exact Bool.noConfusion h
        · exact hS h),
      if_neg (by intro h; rw [htph] at h; exact Bool.noConfusion h)]
    rw [htm]
    dsimp only
    simp only [hstript]
    rw [if_neg heqb, if_neg htsk, if_neg htsv, if_neg htup,
      if_neg (by intro h; rw [hsl] at h; exact Bool.noConfusion h),
      if_neg htpc, if_neg hdt]
    rw [show takeRecipe ['#' :: '\t' :: R] = ([stripPy ('\t' :: R)], []) from rfl]
    try dsimp only
    rw [show (1 : Nat) = 0 + 1 from rfl]
    rw [parseGo]
    try dsimp only
    have hstrip : stripPy ('\t' :: R) = R := by
      have h1 : List.dropWhile pyWS ('\t' :: R) = List.dropWhile pyWS R := by
        rw [List.dropWhile_cons, if_pos (by decide)]
      unfold stripPy
      rw [h1, dropWhile_head_false hR1,
        dropWhile_head_false (by rw [List.head?_reverse]; exact hR2), List.reverse_reverse]
    rw [hstrip]
    unfold recipeScan
    rw [List.foldl_cons]
    rw [hres]
    cases sdOpt with
    | some sd =>
      dsimp only
      rw [List.foldl_nil]
      rfl
    | none =>
      dsimp only
      rw [List.foldl_nil]
      rfl
  constructor
  · show (parse_raw (joinNl [strL "# Files", (t0 :: t') ++ [':'],
        '#' :: '\t' :: R])).targets.map (fun p => (p.1, pyDedup p.2)) = [((t0 :: t'), [])]
    rw [hmain]
    rfl
  · show (parse_raw (joinNl [strL "# Files", (t0 :: t') ++ [':'], '#' :: '\t' :: R])).make_calls =
      [((t0 :: t'), [callEdge sdOpt tok])]
    rw [hmain]


/-! ## Claim inputs -/

/-- The exact input text of claim C1. -/
def c1Input : Str :=
  strL "all: build test\nbuild:\n\ttouch build\ntest: build\n\techo ok\n.PHONY: all test"

/-- The C1 input preceded by the database-section marker line `# Files`. -/
def c1InputDb : Str := strL "# Files\n" ++ c1Input

theorem lookupA_map_dedup (l : List (Str × List Str)) (t : Str) :
    lookupA (l.map (fun p => (p.1, pyDedup p.2))) t = (lookupA l t).map pyDedup := by
  induction l with
  | nil => rfl
  | cons p r ih =>
    obtain ⟨k, v⟩ := p
    rw [List.map_cons, lookupA, lookupA]
    split
    · rfl
    · exact ih

/-- The recipe text of the C7 counterexample: one recipe line holding two
build-tool invocations, the later one with the `-C` flag. -/
def c7CexR : Str := strL "echo $(MAKE) foo; $(MAKE) -C sub tgt"

/-- The counterexample graph for claim C5: it contains the three-node cycle
`A -> B -> C -> A` among its edges, together with a second path `A -> Z -> C`. -/
def c5Cex : List (String × List String) :=
  [("A", ["Z", "B"]), ("Z", ["C"]), ("B", ["C"]), ("C", ["A"])]

/-- The acyclic witness graph for claim C6. -/
def c6Dag : List (Nat × List Nat) := [(0, [1]), (1, [])]

/-! ## Claim theorems -/

/-- C1 (counterexample): applying `parse_make_database` to the claim's exact
input text yields an *empty* target mapping — not the claimed
`{all: [build, test], build: [], test: [build]}` — because the input contains
no `# Files` database-section marker, and before that marker the parser only
harvests `.PHONY` lines (source lines 90–104).  In particular `all` is not a
key of the result. -/
theorem c1_counterexample :
    (parse_make_database c1Input).targets = [] ∧
    lookupA (parse_make_database c1Input).targets (strL "all") = none :=
  ⟨rfl, rfl⟩

/-- C1 (amended): when the same input is preceded by the database-section
marker line `# Files`, `parse_make_database` returns the target mapping
`{all: [build, test], build: [], test: [build]}`, the phony set `{all, test}`,
an empty recursive-call mapping, and `find_cycles` on the combined graph built
from the result returns an empty cycle list. -/
theorem c1_amended :
    (parse_make_database c1InputDb).targets =
      [(strL "all", [strL "build", strL "test"]), (strL "build", []),
       (strL "test", [strL "build"])] ∧
    (parse_make_database c1InputDb).make_calls = [] ∧
    (∀ x : Str, x ∈ (parse_make_database c1InputDb).phony ↔
      (x = strL "all" ∨ x = strL "test")) ∧
    find_cycles (buildGraph (parse_make_database c1InputDb).targets
      (parse_make_database c1InputDb).make_calls) = [] := by
  refine ⟨rfl, rfl, ?_, rfl⟩
  intro x
  rw [show (parse_make_database c1InputDb).phony = [strL "all", strL "test"] from rfl]
  simp

/-- C2: a target's final dependency list is the dedup-keeping-first-occurrence
of everything accumulated for it across all accepted rule lines (`parse_raw` is
the parser before the final dedup pass, so `raw` is exactly the concatenation
of the dependency lists of those lines, source lines 176–178); the final list
agrees with the spec's description (`dedupFirstSpec`), has no duplicates, has
the same members as the union, and each name occurs exactly once. -/
theorem c2_dedup_across_lines (s t : Str) (raw : List Str)
    (hraw : lookupA (parse_raw s).targets t = some raw) :
    lookupA (parse_make_database s).targets t = some (pyDedup raw) ∧
    pyDedup raw = dedupFirstSpec raw ∧
    (pyDedup raw).Nodup ∧
    (∀ d, d ∈ pyDedup raw ↔ d ∈ raw) ∧
    (∀ d, d ∈ raw → (pyDedup raw).count d = 1) := by
  refine ⟨?_, pyDedup_eq_dedupFirstSpec raw, pyDedup_nodup raw, fun d => pyDedup_mem,
    fun d hd => (countStr_eq d (pyDedup raw)).trans (pyDedup_count_one hd)⟩
  show lookupA ((parse_raw s).targets.map (fun p => (p.1, pyDedup p.2))) t = some (pyDedup raw)
  rw [lookupA_map_dedup, hraw]
  rfl

/-- Witness for C2 at the input `# Files\nx: a b\nx: b c`: the raw accumulation
for `x` is `[a, b, b, c]`, and the theorem yields the final list `[a, b, c]`. -/
theorem c2_witness :
    lookupA (parse_raw (strL "# Files\nx: a b\nx: b c")).targets (strL "x") =
      some [strL "a", strL "b", strL "b", strL "c"] ∧
    lookupA (parse_make_database (strL "# Files\nx: a b\nx: b c")).targets (strL "x") =
      some (pyDedup [strL "a", strL "b", strL "b", strL "c"]) :=
  ⟨by decide,
   (c2_dedup_across_lines (strL "# Files\nx: a b\nx: b c") (strL "x")
     [strL "a", strL "b", strL "b", strL "c"] (by decide)).1⟩

/-- C3: for every input line in which `=` occurs before the first `:`, the name
to the left of that first colon (as the target regex would capture and strip
it) is not a key of the returned target mapping: such a line is rejected by the
variable-assignment check, and no other accepted line can produce a key
containing `=`, since a key is always a substring of the text before its own
line's first colon. -/
theorem c3_assignment_excluded (s line : Str) (_hline : line ∈ splitNl s)
    (heq : eqBeforeColon line) :
    stripPy (beforeChar ':' line) ∉ keysOf (parse_make_database s).targets := by
  intro habs
  rw [show (parse_make_database s).targets =
      (parse_raw s).targets.map (fun p => (p.1, pyDedup p.2)) from rfl,
    keysOf_map_dedup] at habs
  have hinv := parseGo_keys_no_eq (splitNl s).length (splitNl s) initPSt
    (by intro k hk; exact absurd hk (by simp [initPSt, keysOf]))
  have hnoeq := hinv _ habs
  obtain ⟨hceq, _hccol, hlt⟩ := heq
  have hmeq : '=' ∈ line := contains_iff_memC.mp hceq
  have hinb : '=' ∈ beforeChar ':' line := mem_beforeChar_of_lt hmeq hlt
  exact hnoeq (mem_stripPy_of_not_ws hinb (by decide))

/-- Witness for C3 at the input `# Files\nx=1: y` and its assignment line. -/
theorem c3_witness :
    (strL "x=1: y" ∈ splitNl (strL "# Files\nx=1: y")) ∧
    eqBeforeColon (strL "x=1: y") ∧
    stripPy (beforeChar ':' (strL "x=1: y")) ∉
      keysOf (parse_make_database (strL "# Files\nx=1: y")).targets :=
  ⟨by decide, by decide,
   c3_assignment_excluded (strL "# Files\nx=1: y") (strL "x=1: y") (by decide) (by decide)⟩

/-- C4: a graph with a direct self-edge — a node `a` whose adjacency list
contains `a` itself — makes `find_cycles` report the cycle `[a, a]`: the
length-1 cycle that starts and ends at `a` and contains exactly the name `a`. -/
theorem c4_self_loop {α : Type _} [DecidableEq α] (g : List (α × List α)) (a : α)
    (h : ∃ ds, lookupA g a = some ds ∧ a ∈ ds) :
    [a, a] ∈ find_cycles g := by
  obtain ⟨ds, hA, haa⟩ := h
  have hkey : a ∈ keysOf g := lookupA_some_mem_keys hA
  have hsome := find_cyclesO_isSome g
  unfold find_cycles
  cases hO : find_cyclesO g with
  | none => rw [hO] at hsome; exact absurd hsome (by simp)
  | some st' =>
    unfold find_cyclesO at hO
    exact driveF_self hA haa (keysOf g) ⟨[], [], []⟩ st' hO
      (fun x hx => absurd hx (by simp)) hkey (by simp)

/-- Witness for C4 at the one-node graph with a self-edge. -/
theorem c4_witness :
    (∃ ds, lookupA [((0 : Nat), [0])] 0 = some ds ∧ 0 ∈ ds) ∧
    [0, 0] ∈ find_cycles [((0 : Nat), [0])] :=
  ⟨⟨[0], by decide, by decide⟩, c4_self_loop [((0 : Nat), [0])] 0 ⟨[0], by decide, by decide⟩⟩

/-- C5 (counterexample): the graph `c5Cex` contains the three-node cycle
`A -> B -> C -> A` among its edges, yet no cycle reported by `find_cycles`
contains all three of `A`, `B`, `C`: the traversal first closes the overlapping
cycle `[A, Z, C, A]`, after which `B`'s exploration stops at the already
visited `C`, so the claimed cycle report never happens. -/
theorem c5_counterexample :
    (EdgeG c5Cex "A" "B" ∧ EdgeG c5Cex "B" "C" ∧ EdgeG c5Cex "C" "A") ∧
    ¬ ∃ c ∈ find_cycles c5Cex, c.head? = c.getLast? ∧
        "A" ∈ c ∧ "B" ∈ c ∧ "C" ∈ c := by
  constructor
  · exact ⟨⟨["Z", "B"], by decide, by decide⟩, ⟨["C"], by decide, by decide⟩,
      ⟨["A"], by decide, by decide⟩⟩
  · intro ⟨c, hc, _, _, hB, _⟩
    rw [show find_cycles c5Cex = [["A", "Z", "C", "A"]] from by decide] at hc
    rw [List.mem_singleton] at hc
    subst hc
    revert hB
    decide

/-- C5 (amended): for every graph consisting exactly of the three-node cycle
`a -> b -> c -> a` over distinct names, `find_cycles` reports the single cycle
`[a, b, c, a]`, which starts and ends at the same node and contains all three
names.  (In graphs with additional edges the original claim fails; see the
counterexample.) -/
theorem c5_amended {α : Type _} [DecidableEq α] (a b c : α)
    (hab : a ≠ b) (hbc : b ≠ c) (hac : a ≠ c) :
    find_cycles [(a, [b]), (b, [c]), (c, [a])] = [[a, b, c, a]] := by
  unfold find_cycles find_cyclesO
  rw [show cycleFuel [(a, [b]), (b, [c]), (c, [a])] = 7 from rfl]
  rw [show keysOf [(a, [b]), (b, [c]), (c, [a])] = [a, b, c] from rfl]
  simp only [driveF, dfsF_succ, dfsDeps, lookupA, firstIdxA, List.mem_cons,
    List.mem_singleton, List.not_mem_nil, or_false, false_or, if_true, if_false, ite_true,
    ite_false, hab, hbc, hac, Ne.symm hab, Ne.symm hbc, Ne.symm hac, if_pos, List.append_nil,
    List.nil_append, List.cons_append, List.drop, List.dropLast]

/-- Witness for the amended C5 at the concrete names `A`, `B`, `C`. -/
theorem c5_witness :
    (("A" : String) ≠ "B" ∧ ("B" : String) ≠ "C" ∧ ("A" : String) ≠ "C") ∧
    find_cycles [("A", ["B"]), ("B", ["C"]), ("C", ["A"])] = [["A", "B", "C", "A"]] :=
  ⟨⟨by decide, by decide, by decide⟩,
   c5_amended "A" "B" "C" (by decide) (by decide) (by decide)⟩

/-- C6: on an acyclic graph — one with no closed directed walk, i.e. no
directed path from any node back to itself — `find_cycles` returns the empty
cycle list, because every reported cycle is a closed walk of the graph. -/
theorem c6_acyclic_empty {α : Type _} [DecidableEq α] (g : List (α × List α))
    (hacyc : ∀ c, ¬ IsClosedWalk g c) : find_cycles g = [] := by
  rw [List.eq_nil_iff_forall_not_mem]
  intro c hc
  exact hacyc c (find_cycles_sound c hc)

/-- Witness for C6 at the two-node acyclic graph `0 -> 1`. -/
theorem c6_witness :
    (∀ c, ¬ IsClosedWalk c6Dag c) ∧ find_cycles c6Dag = [] := by
  have hacyc : ∀ c, ¬ IsClosedWalk c6Dag c := by
    rintro c ⟨hlen, hhl, hchain⟩
    match c with
    | [] => simp at hlen
    | [x] => simp at hlen
    | x :: y :: t =>
      have hxy : EdgeG c6Dag x y := List.chain'_cons.mp hchain |>.1
      obtain ⟨ds, hds, hy⟩ := hxy
      have hx0 : x = 0 ∧ y = 1 := by
        by_cases h0 : x = 0
        · subst h0
          rw [show lookupA c6Dag 0 = some [1] from by decide] at hds
          cases hds
          simp at hy
          exact ⟨rfl, hy⟩
        · by_cases h1 : x = 1
          · subst h1
            rw [show lookupA c6Dag 1 = some [] from by decide] at hds
            cases hds
            simp at hy
          · rw [show ∀ z : Nat, z ≠ 0 → z ≠ 1 → lookupA c6Dag z = none from by
                intro z hz0 hz1
                show lookupA [((0 : Nat), [1]), (1, [])] z = none
                rw [lookupA, if_neg hz0, lookupA, if_neg hz1, lookupA]]
              at hds
            · exact absurd hds (by simp)
            · exact h0
            · exact h1
      obtain ⟨rfl, rfl⟩ := hx0
      match t with
      | [] => simp at hhl
      | z :: t' =>
        have h1z : EdgeG c6Dag 1 z := (List.chain'_cons.mp (List.chain'_cons.mp hchain).2).1
        obtain ⟨ds, hds, hz⟩ := h1z
        rw [show lookupA c6Dag 1 = some [] from by decide] at hds
        cases hds
        simp at hz
  exact ⟨hacyc, c6_acyclic_empty c6Dag hacyc⟩

/-- C7 (counterexample): the accepted target `build` has a recipe line whose
text contains the invocation `$(MAKE) -C sub tgt`, yet the recorded
recursive-call edge is `foo`, not `sub/tgt`: `re.search` (source line 200)
yields only the line's leftmost match, which here is the earlier plain
invocation `$(MAKE) foo`, so the claimed edge is never recorded. -/
theorem c7_counterexample :
    keysOf (parse_make_database (c7in (strL "build") c7CexR)).targets = [strL "build"] ∧
    hasSub c7CexR (strL "$(MAKE) -C sub tgt") = true ∧
    (parse_make_database (c7in (strL "build") c7CexR)).make_calls =
      [(strL "build", [strL "foo"])] ∧
    strL "sub/tgt" ∉
      (lookupA (parse_make_database (c7in (strL "build") c7CexR)).make_calls
        (strL "build")).getD [] := by
  decide

/-- C7 (amended): for every accepted target name `t` and recipe line whose
*leftmost* build-tool invocation is `$(MAKE) -C sub tgt` — in particular
whenever the invocation is preceded only by dollar-free text `pre` — the
recorded recursive-call edge is `sub/tgt`, and for the same invocation without
the `-C` flag it is the bare `tgt`; `t` is recorded as a target.  (Only the
leftmost match of a recipe line counts: a later `-C` invocation on the same
line is ignored, see the counterexample.) -/
theorem c7_amended (t pre sub tgt : Str)
    (ht : t ≠ [])
    (hth : ∀ c ∈ t.head?, c ≠ '#' ∧ c ≠ ':' ∧ pyWS c = false ∧ c ≠ '/' ∧ c ≠ '.')
    (htl : ∀ c ∈ t.getLast?, pyWS c = false)
    (htc : ':' ∉ t) (hteq : '=' ∉ t) (htnl : '\n' ∉ t)
    (htph : phonyLine (t ++ [':']) = false)
    (htsk : t ∉ SKIP_TARGETS) (htsv : t ∉ SKIP_VARS)
    (htup : ¬(pyIsUpper t ∧ ¬(' ' ∈ t)))
    (htpc : '%' ∉ t)
    (hpd : '$' ∉ pre) (hpnl : '\n' ∉ pre)
    (hph : ∀ c ∈ pre.head?, pyWS c = false)
    (hsub : sub ≠ []) (hsubws : ∀ c ∈ sub, pyWS c = false)
    (htgt : tgt ≠ []) (htok : ∀ c ∈ tgt, mkTokChar c = true) :
    (parse_make_database (c7in t (pre ++ strL "$(MAKE) -C " ++ sub ++ ' ' :: tgt))).targets =
      [(t, [])] ∧
    (parse_make_database (c7in t (pre ++ strL "$(MAKE) -C " ++ sub ++ ' ' :: tgt))).make_calls =
      [(t, [sub ++ '/' :: tgt])] ∧
    (parse_make_database (c7in t (pre ++ strL "$(MAKE) " ++ tgt))).make_calls =
      [(t, [tgt])] := by
  have htgtLast : ∀ c ∈ tgt.getLast?, pyWS c = false := by
    intro c hc
    exact mkTok_not_ws (htok c (mem_of_mem_getLastQ hc))
  have htgtNl : '\n' ∉ tgt := by
    intro habs
    have hb := htok _ habs
    revert hb
    decide
  have hA1 : ∀ c ∈ (pre ++ strL "$(MAKE) -C " ++ sub ++ ' ' :: tgt).head?, pyWS c = false := by
    cases pre with
    | nil =>
      intro c hc
      rw [show (([] : Str) ++ strL "$(MAKE) -C " ++ sub ++ ' ' :: tgt).head? = some '$'
        from rfl] at hc
      cases hc
      decide
    | cons p0 p' =>
      intro c hc
      rw [show ((p0 :: p') ++ strL "$(MAKE) -C " ++ sub ++ ' ' :: tgt).head? = some p0
        from rfl] at hc
      cases hc
      exact hph p0 (by simp)
  have hA2 : ∀ c ∈ (pre ++ strL "$(MAKE) -C " ++ sub ++ ' ' :: tgt).getLast?,
      pyWS c = false := by
    intro c hc
    rw [show pre ++ strL "$(MAKE) -C " ++ sub ++ ' ' :: tgt =
        (pre ++ strL "$(MAKE) -C " ++ sub ++ [' ']) ++ tgt from by simp] at hc
    rw [List.getLast?_append_of_ne_nil _ htgt] at hc
    exact htgtLast c hc
  have hA3 : '\n' ∉ pre ++ strL "$(MAKE) -C " ++ sub ++ ' ' :: tgt := by
    intro habs
    rcases List.mem_append.mp habs with h' | h'
    · rcases List.mem_append.mp h' with h'' | h''
      · rcases List.mem_append.mp h'' with h3 | h3
        · exact hpnl h3
        · exact absurd h3 (by decide)
      · have hb := hsubws _ h''
        revert hb
        decide
    · rcases List.mem_cons.mp h' with h'' | h''
      · exact absurd h''.symm (by decide)
      · exact htgtNl h''
  have hA4 : makeSearch (pre ++ strL "$(MAKE) -C " ++ sub ++ ' ' :: tgt) =
      some (some sub, tgt) := by
    rw [show pre ++ strL "$(MAKE) -C " ++ sub ++ ' ' :: tgt =
        pre ++ (strL "$(MAKE) -C " ++ sub ++ ' ' :: tgt) from by simp]
    rw [makeSearch_append_noDollar hpd]
    exact makeSearch_dashC hsub hsubws htgt htok
  have hB1 : ∀ c ∈ (pre ++ strL "$(MAKE) " ++ tgt).head?, pyWS c = false := by
    cases pre with
    | nil =>
      intro c hc
      rw [show (([] : Str) ++ strL "$(MAKE) " ++ tgt).head? = some '$' from rfl] at hc
      cases hc
      decide
    | cons p0 p' =>
      intro c hc
      rw [show ((p0 :: p') ++ strL "$(MAKE) " ++ tgt).head? = some p0 from rfl] at hc
      cases hc
      exact hph p0 (by simp)
  have hB2 : ∀ c ∈ (pre ++ strL "$(MAKE) " ++ tgt).getLast?, pyWS c = false := by
    intro c hc
    rw [List.getLast?_append_of_ne_nil _ htgt] at hc
    exact htgtLast c hc
  have hB3 : '\n' ∉ pre ++ strL "$(MAKE) " ++ tgt := by
    intro habs
    rcases List.mem_append.mp habs with h' | h'
    · rcases List.mem_append.mp h' with h'' | h''
      · exact hpnl h''
      · exact absurd h'' (by decide)
    · exact htgtNl h'
  have hB4 : makeSearch (pre ++ strL "$(MAKE) " ++ tgt) = some (none, tgt) := by
    rw [List.append_assoc, makeSearch_append_noDollar hpd]
    exact makeSearch_noC htgt htok
  have h1 := parse_recipe_call t (pre ++ strL "$(MAKE) -C " ++ sub ++ ' ' :: tgt) (some sub) tgt
    ht hth htl htc hteq htnl htph htsk htsv htup htpc hA1 hA2 hA3 hA4
  have h2 := parse_recipe_call t (pre ++ strL "$(MAKE) " ++ tgt) none tgt
    ht hth htl htc hteq htnl htph htsk htsv htup htpc hB1 hB2 hB3 hB4
  exact ⟨h1.1, h1.2, h2.2⟩

/-- Witness for the amended C7: target `deploy`, dollar-free prefix
`echo run; `, directory `sub`, token `target`. -/
theorem c7_amended_witness :
    (strL "deploy" ≠ [] ∧
      (∀ c ∈ (strL "deploy").head?, c ≠ '#' ∧ c ≠ ':' ∧ pyWS c = false ∧ c ≠ '/' ∧ c ≠ '.') ∧
      (∀ c ∈ (strL "deploy").getLast?, pyWS c = false) ∧
      ':' ∉ strL "deploy" ∧ '=' ∉ strL "deploy" ∧ '\n' ∉ strL "deploy" ∧
      phonyLine (strL "deploy" ++ [':']) = false ∧
      strL "deploy" ∉ SKIP_TARGETS ∧ strL "deploy" ∉ SKIP_VARS ∧
      ¬(pyIsUpper (strL "deploy") ∧ ¬(' ' ∈ strL "deploy")) ∧ '%' ∉ strL "deploy" ∧
      '$' ∉ strL "echo run; " ∧ '\n' ∉ strL "echo run; " ∧
      (∀ c ∈ (strL "echo run; ").head?, pyWS c = false) ∧
      strL "sub" ≠ [] ∧ (∀ c ∈ strL "sub", pyWS c = false) ∧
      strL "target" ≠ [] ∧ (∀ c ∈ strL "target", mkTokChar c = true)) ∧
    (parse_make_database (c7in (strL "deploy")
        (strL "echo run; " ++ strL "$(MAKE) -C " ++ strL "sub" ++ ' ' :: strL "target"))).targets
      = [(strL "deploy", [])] ∧
    (parse_make_database (c7in (strL "deploy")
        (strL "echo run; " ++ strL "$(MAKE) -C " ++ strL "sub" ++
          ' ' :: strL "target"))).make_calls
      = [(strL "deploy", [strL "sub" ++ '/' :: strL "target"])] ∧
    (parse_make_database (c7in (strL "deploy")
        (strL "echo run; " ++ strL "$(MAKE) " ++ strL "target"))).make_calls
      = [(strL "deploy", [strL "target"])] := by
  have dep1 : strL "deploy" ≠ [] := by decide
  have dep2 : ∀ c ∈ (strL "deploy").head?,
      c ≠ '#' ∧ c ≠ ':' ∧ pyWS c = false ∧ c ≠ '/' ∧ c ≠ '.' := by decide
  have dep3 : ∀ c ∈ (strL "deploy").getLast?, pyWS c = false := by decide
  have dep4 : ':' ∉ strL "deploy" := by decide
  have dep5 : '=' ∉ strL "deploy" := by decide
  have dep6 : '\n' ∉ strL "deploy" := by decide
  have dep7 : phonyLine (strL "deploy" ++ [':']) = false := by decide
  have dep8 : strL "deploy" ∉ SKIP_TARGETS := by decide
  have dep9 : strL "deploy" ∉ SKIP_VARS := by decide
  have dep10 : ¬(pyIsUpper (strL "deploy") ∧ ¬(' ' ∈ strL "deploy")) := by decide
  have dep11 : '%' ∉ strL "deploy" := by decide
  have pre1 : '$' ∉ strL "echo run; " := by decide
  have pre2 : '\n' ∉ strL "echo run; " := by decide
  have pre3 : ∀ c ∈ (strL "echo run; ").head?, pyWS c = false := by decide
  have sub1 : strL "sub" ≠ [] := by decide
  have sub2 : ∀ c ∈ strL "sub", pyWS c = false := by decide
  have tok1 : strL "target" ≠ [] := by decide
  have tok2 : ∀ c ∈ strL "target", mkTokChar c = true := by decide
  have hmain := c7_amended (strL "deploy") (strL "echo run; ") (strL "sub") (strL "target")
    dep1 dep2 dep3 dep4 dep5 dep6 dep7 dep8 dep9 dep10 dep11
    pre1 pre2 pre3 sub1 sub2 tok1 tok2
  exact ⟨⟨dep1, dep2, dep3, dep4, dep5, dep6, dep7, dep8, dep9, dep10, dep11,
    pre1, pre2, pre3, sub1, sub2, tok1, tok2⟩, hmain.1, hmain.2.1, hmain.2.2⟩

/-- C8 (code-bug exhibit): `subprocess.run` is invoked without `check=True`
(source lines 34–40), so a completed `make -pn` process — with any exit
status, including non-zero — never raises `CalledProcessError`; the handler at
source lines 45–49 is dead code, the run is *not* aborted, and the captured
stdout is parsed into the target/call-graph structures. -/
theorem c8_nonzero_exit_not_fatal (rc : Int) (out : Str) (_hrc : rc ≠ 0) :
    parse_makefile_with_make (.completed rc out) = .ok (parse_make_database out) := rfl

/-- Witness for C8 at exit status 2 (a typical `make` failure status). -/
theorem c8_witness :
    ((2 : Int) ≠ 0) ∧
    parse_makefile_with_make (.completed 2 []) = .ok (parse_make_database []) :=
  ⟨by decide, c8_nonzero_exit_not_fatal 2 [] (by decide)⟩

/-- C9: the cycle detector leaves its input graph unchanged — running the
graph-threading embedding returns the graph exactly as given, alongside the
same cycle list as `find_cycles` — and the two renderers return the `targets`
and `make_calls` structures passed to them unchanged. -/
theorem c9_read_only {α : Type _} [DecidableEq α] (g : List (α × List α))
    (targets mc : List (Str × List Str)) (path : Str) :
    (find_cycles_thr g).2 = g ∧ (find_cycles_thr g).1 = find_cycles g ∧
    (generate_dot targets mc path).2 = (targets, mc) ∧
    (generate_mermaid targets mc).2 = (targets, mc) := by
  refine ⟨?_, ?_, rfl, rfl⟩
  · rw [find_cycles_thr_eq]
  · rw [find_cycles_thr_eq]

/-- C10: `find_cycles` terminates on every finite graph — the fuelled
embedding of the Python recursion never exhausts its fuel, because each
non-trivial `dfs` call permanently marks an unvisited node as visited — and
returns the (finite) cycle list of the final state. -/
theorem c10_terminates {α : Type _} [DecidableEq α] (g : List (α × List α)) :
    ∃ st : DSt α, find_cyclesO g = some st ∧ find_cycles g = st.cycles := by
  have h := find_cyclesO_isSome g
  cases hO : find_cyclesO g with
  | none => rw [hO] at h; exact absurd h (by simp)
  | some st =>
    refine ⟨st, rfl, ?_⟩
    unfold find_cycles
    rw [hO]
